import Mathlib

/-!
Verification of the order-statistics AVL tree (`src/avl.py`) and the
linear-probing hash table (`src/hash_table.py`, `src/primes.py`) of the
Minecraft-Trading repository.

The embedding is shallow: Python `None` children become the `nil`
constructor, in-place node mutation becomes node reconstruction (each
Python helper returns the new subtree root, which the caller reattaches,
so the data flow is already functional), Python exceptions become an
explicit `Except PyErr` result, and the `self.length` counter mutated by
`insert_aux` / `delete_aux` is threaded through those functions as an
extra argument/result.  Python `int` is modelled by `Int`.
-/

namespace AVL

/-- Python exceptions raised by the tree code:
`KeyError` by `insert_aux` (duplicate key), `ValueError` by `delete_aux`
(absent key), `AttributeError` by `get_max` on an empty tree
(`None.right`). -/
inductive PyErr where
  | keyError
  | valueError
  | attributeError
deriving DecidableEq, Repr

/-- Node class `AVLTreeNode` (from `node.py`, overwritten fields recomputed in
`avl.py`): key, item, left, right, cached `height`, cached `tree_size`.
`nil` stands for Python `None`. -/
inductive AVLNode (K I : Type) where
  | nil : AVLNode K I
  | node (key : K) (item : I) (left right : AVLNode K I)
      (height : Int) (tree_size : Int) : AVLNode K I
deriving DecidableEq, Repr

variable {K I : Type} [LinearOrder K]

open AVLNode

/-- Method `AVLTree.get_height` (avl.py lines 38-47): cached height, 0 for `None`. -/
def get_height : AVLNode K I → Int
  | nil => 0
  | node _ _ _ _ h _ => h

/-- Method `AVLTree.get_tree_size` (avl.py lines 27-36): cached size, 0 for `None`. -/
def get_tree_size : AVLNode K I → Int
  | nil => 0
  | node _ _ _ _ _ s => s

/-- Method `AVLTree.get_balance` (avl.py lines 49-58):
`get_height(right) - get_height(left)`, 0 for `None`. -/
def get_balance : AVLNode K I → Int
  | nil => 0
  | node _ _ l r _ _ => get_height r - get_height l

/-- The recomputation of `current.height` and `current.tree_size` from the
children's caches (avl.py lines 82-83, 124-125, 157-163, 192-198). -/
def mk_node (k : K) (v : I) (l r : AVLNode K I) : AVLNode K I :=
  node k v l r (1 + max (get_height l) (get_height r))
    (1 + get_tree_size l + get_tree_size r)

/-- Method `AVLTree.left_rotate` (avl.py lines 133-166): the right child becomes
the new subtree root; heights and sizes of the two restructured nodes are
recomputed (old root first, then the pivot).  The fall-through arm models
the states in which the source would raise `AttributeError`
(`current.right` is `None`); `rebalance` never reaches it when the caches
are consistent. -/
def left_rotate : AVLNode K I → AVLNode K I
  | node k v l (node rk rv rl rr _ _) _ _ => mk_node rk rv (mk_node k v l rl) rr
  | t => t

/-- Method `AVLTree.right_rotate` (avl.py lines 168-201): mirror image of
`left_rotate`. -/
def right_rotate : AVLNode K I → AVLNode K I
  | node k v (node lk lv ll lr _ _) r _ _ => mk_node lk lv ll (mk_node k v lr r)
  | t => t

/-- Method `AVLTree.rebalance` (avl.py lines 204-230).  The fall-through arms
model states where the source would dereference `None` (possible only
with inconsistent caches). -/
def rebalance (current : AVLNode K I) : AVLNode K I :=
  if get_balance current ≥ 2 then
    match current with
    | node k v l (node rk rv rl rr rh rs) h s =>
        if get_height rl > get_height rr then
          left_rotate (node k v l (right_rotate (node rk rv rl rr rh rs)) h s)
        else
          left_rotate (node k v l (node rk rv rl rr rh rs) h s)
    | t => t
  else if get_balance current ≤ -2 then
    match current with
    | node k v (node lk lv ll lr lh ls) r h s =>
        if get_height lr > get_height ll then
          right_rotate (node k v (left_rotate (node lk lv ll lr lh ls)) r h s)
        else
          right_rotate (node k v (node lk lv ll lr lh ls) r h s)
    | t => t
  else current

/-- Method `AVLTree.insert_aux` (avl.py lines 60-87).  The `Int` argument/result
threads the `self.length` counter (`+= 1` at the new leaf); the `Except`
models the `KeyError` raised on a duplicate key.  On an error the source
raises before any assignment, so the length travels through unchanged. -/
def insert_aux : AVLNode K I → K → I → Int → Except PyErr (AVLNode K I) × Int
  | nil, key, item, len =>
      (Except.ok (rebalance (mk_node key item nil nil)), len + 1)
  | node ck cv l r h s, key, item, len =>
      if key < ck then
        match insert_aux l key item len with
        | (Except.ok l', len') =>
            (Except.ok (rebalance (mk_node ck cv l' r)), len')
        | (Except.error e, len') => (Except.error e, len')
      else if key > ck then
        match insert_aux r key item len with
        | (Except.ok r', len') =>
            (Except.ok (rebalance (mk_node ck cv l r')), len')
        | (Except.error e, len') => (Except.error e, len')
      else
        (Except.error PyErr.keyError, len)

/-- Modelled from the spec: `get_successor` lives in `bst.py`, which is
not under `src/`; per spec section 4.2 the successor is "the leftmost node
of the right subtree".  This returns the key/item pair of the leftmost
node of the given subtree (`none` on an empty subtree, in which case the
source would not have called it). -/
def leftmost_pair : AVLNode K I → Option (K × I)
  | nil => none
  | node k v l _ _ _ =>
      match leftmost_pair l with
      | none => some (k, v)
      | some p => some p

/-- Method `AVLTree.delete_aux` (avl.py lines 90-130).  The `Int` threads
`self.length` (`-= 1` at the excised node); the `Except` models the
`ValueError` raised on an absent key.  `is_leaf` (from the missing
`bst.py`) is modelled as both children being `None`.  The `none`
successor arm is unreachable (the right child is a node there). -/
def delete_aux : AVLNode K I → K → Int → Except PyErr (AVLNode K I) × Int
  | nil, _, len => (Except.error PyErr.valueError, len)
  | node ck cv l r h s, key, len =>
      if key < ck then
        match delete_aux l key len with
        | (Except.ok l', len') =>
            (Except.ok (rebalance (mk_node ck cv l' r)), len')
        | (Except.error e, len') => (Except.error e, len')
      else if key > ck then
        match delete_aux r key len with
        | (Except.ok r', len') =>
            (Except.ok (rebalance (mk_node ck cv l r')), len')
        | (Except.error e, len') => (Except.error e, len')
      else
        match l, r with
        | nil, nil => (Except.ok nil, len - 1)
        | nil, node _ _ _ _ _ _ => (Except.ok r, len - 1)
        | node _ _ _ _ _ _, nil => (Except.ok l, len - 1)
        | node _ _ _ _ _ _, node _ _ _ _ _ _ =>
          match leftmost_pair r with
          | some (sk, sv) =>
              match delete_aux r sk len with
              | (Except.ok r', len') =>
                  (Except.ok (rebalance (mk_node sk sv l r')), len')
              | (Except.error e, len') => (Except.error e, len')
          | none => (Except.error PyErr.valueError, len)

/-- Method `AVLTree.range_between_aux` (avl.py lines 245-280). -/
def range_between_aux : AVLNode K I → Int → Int → Int → List I → List I
  | nil, _, _, _, l => l
  | node _ cv lt rt _ _, i, j, m, l =>
      let current_index :=
        match rt with
        | nil => m
        | node _ _ _ _ _ rs => m - rs
      let l1 := if current_index > i then
          range_between_aux lt i j (current_index - 1) l else l
      let l2 := if i ≤ current_index ∧ current_index ≤ j then
          l1 ++ [cv] else l1
      if current_index < j then range_between_aux rt i j m l2 else l2

/-- The loop of `AVLTree.get_max` (avl.py lines 283-291): descend right
children until `None`; on an empty tree the source evaluates
`None.right`, raising `AttributeError`. -/
def get_max_aux : AVLNode K I → Except PyErr (K × I)
  | nil => Except.error PyErr.attributeError
  | node k v _ nil _ _ => Except.ok (k, v)
  | node _ _ _ (node rk rv rl rr rh rs) _ _ =>
      get_max_aux (node rk rv rl rr rh rs)

/-- The tree object: `root` and `length` live on `BinarySearchTree`
(`bst.py`, not under `src/`); spec section 3 defines them as the owned
root and the number of keys. -/
structure AVLTree (K I : Type) where
  root : AVLNode K I
  length : Int
deriving DecidableEq, Repr

/-- The empty tree produced by `AVLTree.__init__`. -/
def emptyTree : AVLTree K I := ⟨nil, 0⟩

/-- Modelled from the spec: the `insert` wrapper lives in `bst.py` (not
under `src/`); per spec sections 2 and 4.1 it recurses from the root and
stores the returned root (`self.root = self.insert_aux(self.root, key,
item)`).  When the aux raises, the assignment does not happen and — the
source mutates nothing before raising — the tree object is unchanged, so
the error case returns the original root with the threaded length. -/
def AVLTree.insert_op (t : AVLTree K I) (key : K) (item : I) :
    AVLTree K I × Option PyErr :=
  match insert_aux t.root key item t.length with
  | (Except.ok r, len) => (⟨r, len⟩, none)
  | (Except.error e, len) => (⟨t.root, len⟩, some e)

/-- Modelled from the spec: the `delete` wrapper from `bst.py`
(`self.root = self.delete_aux(self.root, key)`), same conventions as
`AVLTree.insert_op`. -/
def AVLTree.delete_op (t : AVLTree K I) (key : K) :
    AVLTree K I × Option PyErr :=
  match delete_aux t.root key t.length with
  | (Except.ok r, len) => (⟨r, len⟩, none)
  | (Except.error e, len) => (⟨t.root, len⟩, some e)

/-- Method `AVLTree.range_between` (avl.py lines 232-242). -/
def AVLTree.range_between (t : AVLTree K I) (i j : Int) : List I :=
  range_between_aux t.root i j (t.length - 1) []

/-- Method `AVLTree.get_max` (avl.py lines 283-291). -/
def AVLTree.get_max (t : AVLTree K I) : Except PyErr (K × I) :=
  get_max_aux t.root

/-- Modelled from the spec: `lookup` lives in `bst.py` (not under
`src/`); per spec section 6 it is the standard BST search by key
comparison, failing if the key is absent. -/
def find_aux : AVLNode K I → K → Option I
  | nil, _ => none
  | node ck cv l r _ _, key =>
      if key < ck then find_aux l key
      else if key > ck then find_aux r key
      else some cv

/-! ### Specification-side functions and invariants -/

/-- In-order traversal: the (key, item) pairs in BST order. -/
def inorder : AVLNode K I → List (K × I)
  | nil => []
  | node k v l r _ _ => inorder l ++ (k, v) :: inorder r

/-- The keys in in-order. -/
def keys (t : AVLNode K I) : List K := (inorder t).map Prod.fst

/-- The items in in-order. -/
def items (t : AVLNode K I) : List I := (inorder t).map Prod.snd

/-- The true height of a tree, independent of the cached fields. -/
def real_height : AVLNode K I → Int
  | nil => 0
  | node _ _ l r _ _ => 1 + max (real_height l) (real_height r)

/-- The true number of nodes, independent of the cached fields. -/
def num_nodes : AVLNode K I → Int
  | nil => 0
  | node _ _ l r _ _ => 1 + num_nodes l + num_nodes r

/-- BST ordering invariant: all keys on the left are smaller, all keys on
the right larger, recursively. -/
def Ordered : AVLNode K I → Prop
  | nil => True
  | node k _ l r _ _ =>
      Ordered l ∧ Ordered r ∧ (∀ x ∈ keys l, x < k) ∧ (∀ x ∈ keys r, k < x)

/-- AVL balance invariant on true heights. -/
def BalancedR : AVLNode K I → Prop
  | nil => True
  | node _ _ l r _ _ =>
      BalancedR l ∧ BalancedR r ∧
      real_height l - real_height r ≤ 1 ∧ real_height r - real_height l ≤ 1

/-- Cache-consistency invariant: every `height` and `tree_size` field
equals its recursive definition. -/
def CachedOk : AVLNode K I → Prop
  | nil => True
  | node _ _ l r h s =>
      CachedOk l ∧ CachedOk r ∧
      h = 1 + max (real_height l) (real_height r) ∧
      s = 1 + num_nodes l + num_nodes r

/-- All three structural invariants together. -/
def Good (t : AVLNode K I) : Prop := Ordered t ∧ BalancedR t ∧ CachedOk t

@[simp] lemma inorder_nil : inorder (nil : AVLNode K I) = [] := rfl

@[simp] lemma inorder_node (k : K) (v : I) (l r h s) :
    inorder (node k v l r h s) = inorder l ++ (k, v) :: inorder r := rfl

@[simp] lemma keys_nil : keys (nil : AVLNode K I) = [] := rfl

@[simp] lemma keys_node (k : K) (v : I) (l r h s) :
    keys (node k v l r h s) = keys l ++ k :: keys r := by
  simp [keys, inorder]

@[simp] lemma ordered_nil : Ordered (nil : AVLNode K I) := trivial

@[simp] lemma ordered_node (k : K) (v : I) (l r h s) :
    Ordered (node k v l r h s) ↔
      Ordered l ∧ Ordered r ∧ (∀ x ∈ keys l, x < k) ∧ (∀ x ∈ keys r, k < x) :=
  Iff.rfl

@[simp] lemma balancedR_nil : BalancedR (nil : AVLNode K I) := trivial

@[simp] lemma balancedR_node (k : K) (v : I) (l r h s) :
    BalancedR (node k v l r h s) ↔
      BalancedR l ∧ BalancedR r ∧
      real_height l - real_height r ≤ 1 ∧ real_height r - real_height l ≤ 1 :=
  Iff.rfl

@[simp] lemma cachedOk_nil : CachedOk (nil : AVLNode K I) := trivial

@[simp] lemma cachedOk_node (k : K) (v : I) (l r h s) :
    CachedOk (node k v l r h s) ↔
      CachedOk l ∧ CachedOk r ∧
      h = 1 + max (real_height l) (real_height r) ∧
      s = 1 + num_nodes l + num_nodes r :=
  Iff.rfl

@[simp] lemma real_height_nil : real_height (nil : AVLNode K I) = 0 := rfl

@[simp] lemma real_height_node (k : K) (v : I) (l r h s) :
    real_height (node k v l r h s) = 1 + max (real_height l) (real_height r) :=
  rfl

@[simp] lemma num_nodes_nil : num_nodes (nil : AVLNode K I) = 0 := rfl

@[simp] lemma num_nodes_node (k : K) (v : I) (l r h s) :
    num_nodes (node k v l r h s) = 1 + num_nodes l + num_nodes r := rfl

lemma real_height_nonneg (t : AVLNode K I) : 0 ≤ real_height t := by
  induction t with
  | nil => simp
  | node k v l r h s ihl ihr => simp; omega

lemma num_nodes_nonneg (t : AVLNode K I) : 0 ≤ num_nodes t := by
  induction t with
  | nil => simp
  | node k v l r h s ihl ihr => simp; omega

lemma real_height_pos (k : K) (v : I) (l r h s) :
    1 ≤ real_height (node k v l r h s) := by
  have hl := real_height_nonneg l
  have hr := real_height_nonneg r
  simp; omega

/-- Under cache consistency the cached height is the true height. -/
lemma get_height_eq {t : AVLNode K I} (h : CachedOk t) :
    get_height t = real_height t := by
  cases t with
  | nil => rfl
  | node k v l r hh ss =>
      simp only [cachedOk_node] at h
      simp [get_height, h.2.2.1]

/-- Under cache consistency the cached size is the true node count. -/
lemma get_tree_size_eq {t : AVLNode K I} (h : CachedOk t) :
    get_tree_size t = num_nodes t := by
  cases t with
  | nil => rfl
  | node k v l r hh ss =>
      simp only [cachedOk_node] at h
      simp [get_tree_size, h.2.2.2]

/-- Applying `mk_node` under consistent children produces a consistent node. -/
lemma mk_node_cachedOk {l r : AVLNode K I} (k : K) (v : I)
    (hl : CachedOk l) (hr : CachedOk r) : CachedOk (mk_node k v l r) := by
  simp [mk_node, get_height_eq hl, get_height_eq hr,
    get_tree_size_eq hl, get_tree_size_eq hr, hl, hr]

@[simp] lemma inorder_mk_node (k : K) (v : I) (l r) :
    inorder (mk_node k v l r : AVLNode K I) = inorder l ++ (k, v) :: inorder r :=
  rfl

@[simp] lemma keys_mk_node (k : K) (v : I) (l r) :
    keys (mk_node k v l r : AVLNode K I) = keys l ++ k :: keys r := by
  simp [mk_node]

@[simp] lemma real_height_mk_node (k : K) (v : I) (l r : AVLNode K I) :
    real_height (mk_node k v l r) = 1 + max (real_height l) (real_height r) :=
  rfl

@[simp] lemma num_nodes_mk_node (k : K) (v : I) (l r : AVLNode K I) :
    num_nodes (mk_node k v l r) = 1 + num_nodes l + num_nodes r := rfl

lemma num_nodes_eq_length (t : AVLNode K I) :
    num_nodes t = ((inorder t).length : Int) := by
  induction t with
  | nil => simp
  | node k v l r h s ihl ihr => simp [ihl, ihr]; omega

/-! ### Reduction lemmas for `rebalance` -/

/-- Running `rebalance` with balance factor in `[-1, 1]` returns its input. -/
lemma rebalance_id {t : AVLNode K I}
    (h1 : ¬ get_balance t ≥ 2) (h2 : ¬ get_balance t ≤ -2) :
    rebalance t = t := by
  cases t with
  | nil => simp [rebalance, get_balance]
  | node k v l r h s =>
      cases l <;> cases r <;>
        · rw [rebalance, if_neg h1, if_neg h2] <;> (intros; simp_all)

/-- Running `rebalance` in the right-heavy single-left-rotation case. -/
lemma rebalance_R_single (k rk : K) (v rv : I) (l rl rr : AVLNode K I)
    (rh2 rs2 h s : Int)
    (hge : get_height (node rk rv rl rr rh2 rs2) - get_height l ≥ 2)
    (hgt : ¬ (get_height rl > get_height rr)) :
    rebalance (node k v l (node rk rv rl rr rh2 rs2) h s) =
      mk_node rk rv (mk_node k v l rl) rr := by
  rw [rebalance.eq_def]
  simp only [get_balance]
  rw [if_pos hge]
  rw [if_neg hgt]
  simp only [left_rotate]

/-- Running `rebalance` in the right-heavy double-rotation (RL) case. -/
lemma rebalance_R_double (k rk mk2 : K) (v rv mv2 : I) (l ml mr rr : AVLNode K I)
    (mh2 ms2 rh2 rs2 h s : Int)
    (hge : get_height (node rk rv (node mk2 mv2 ml mr mh2 ms2) rr rh2 rs2) -
      get_height l ≥ 2)
    (hgt : get_height (node mk2 mv2 ml mr mh2 ms2) > get_height rr) :
    rebalance (node k v l (node rk rv (node mk2 mv2 ml mr mh2 ms2) rr rh2 rs2) h s) =
      mk_node mk2 mv2 (mk_node k v l ml) (mk_node rk rv mr rr) := by
  rw [rebalance.eq_def]
  simp only [get_balance]
  rw [if_pos hge]
  rw [if_pos hgt]
  simp only [right_rotate, left_rotate, mk_node]

/-- Running `rebalance` in the left-heavy single-right-rotation case. -/
lemma rebalance_L_single (k lk : K) (v lv : I) (ll lr r : AVLNode K I)
    (lh2 ls2 h s : Int)
    (hle : get_height r - get_height (node lk lv ll lr lh2 ls2) ≤ -2)
    (hnge : ¬ (get_height r - get_height (node lk lv ll lr lh2 ls2) ≥ 2))
    (hgt : ¬ (get_height lr > get_height ll)) :
    rebalance (node k v (node lk lv ll lr lh2 ls2) r h s) =
      mk_node lk lv ll (mk_node k v lr r) := by
  rw [rebalance.eq_def]
  simp only [get_balance]
  rw [if_neg hnge, if_pos hle]
  rw [if_neg hgt]
  simp only [right_rotate]

/-- Running `rebalance` in the left-heavy double-rotation (LR) case. -/
lemma rebalance_L_double (k lk mk2 : K) (v lv mv2 : I) (ll ml mr r : AVLNode K I)
    (mh2 ms2 lh2 ls2 h s : Int)
    (hle : get_height r - get_height (node lk lv ll (node mk2 mv2 ml mr mh2 ms2) lh2 ls2) ≤ -2)
    (hnge : ¬ (get_height r - get_height (node lk lv ll (node mk2 mv2 ml mr mh2 ms2) lh2 ls2) ≥ 2))
    (hgt : get_height (node mk2 mv2 ml mr mh2 ms2) > get_height ll) :
    rebalance (node k v (node lk lv ll (node mk2 mv2 ml mr mh2 ms2) lh2 ls2) r h s) =
      mk_node mk2 mv2 (mk_node lk lv ll ml) (mk_node k v mr r) := by
  rw [rebalance.eq_def]
  simp only [get_balance]
  rw [if_neg hnge, if_pos hle]
  rw [if_pos hgt]
  simp only [right_rotate, left_rotate, mk_node]

set_option maxHeartbeats 1600000 in
/-- Full specification of `rebalance` as invoked on a freshly recomputed
node whose children satisfy the invariants and whose imbalance is at most
2: the result satisfies all invariants, preserves the in-order traversal
and the node count, and its height is within one of the input height
(exactly the input height when no rotation fires). -/
lemma rebalance_spec (k : K) (v : I) (l r : AVLNode K I)
    (hOl : Ordered l) (hOr : Ordered r)
    (hkl : ∀ x ∈ keys l, x < k) (hkr : ∀ x ∈ keys r, k < x)
    (hBl : BalancedR l) (hBr : BalancedR r)
    (hCl : CachedOk l) (hCr : CachedOk r)
    (hb1 : real_height l - real_height r ≤ 2)
    (hb2 : real_height r - real_height l ≤ 2) :
    Good (rebalance (mk_node k v l r)) ∧
    inorder (rebalance (mk_node k v l r)) = inorder l ++ (k, v) :: inorder r ∧
    num_nodes (rebalance (mk_node k v l r)) = 1 + num_nodes l + num_nodes r ∧
    max (real_height l) (real_height r) ≤ real_height (rebalance (mk_node k v l r)) ∧
    real_height (rebalance (mk_node k v l r)) ≤ 1 + max (real_height l) (real_height r) ∧
    (real_height l - real_height r ≤ 1 → real_height r - real_height l ≤ 1 →
      real_height (rebalance (mk_node k v l r)) = 1 + max (real_height l) (real_height r)) := by
  have hl0 := real_height_nonneg l
  have hr0 := real_height_nonneg r
  by_cases hA : real_height r - real_height l ≥ 2
  · -- right-heavy: the balance factor is exactly 2
    have hA2 : real_height r = real_height l + 2 := by omega
    cases r with
    | nil => exfalso; simp at hA2; omega
    | node rk rv rl rr rh2 rs2 =>
        obtain ⟨hCrl, hCrr, hrh2, hrs2⟩ := (cachedOk_node ..).mp hCr
        obtain ⟨hOrl, hOrr, hkrl, hkrr⟩ := (ordered_node ..).mp hOr
        obtain ⟨hBrl, hBrr, hbr1, hbr2⟩ := (balancedR_node ..).mp hBr
        have hkrk : k < rk := hkr rk (by simp)
        have hk_rl : ∀ x ∈ keys rl, k < x := fun x hx => hkr x (by simp [hx])
        have hk_rr : ∀ x ∈ keys rr, k < x := fun x hx => hkr x (by simp [hx])
        have hrl0 := real_height_nonneg rl
        have hrr0 := real_height_nonneg rr
        have hAr : (1 : Int) + max (real_height rl) (real_height rr) =
            real_height l + 2 := by simpa using hA2
        have hge : get_height (node rk rv rl rr rh2 rs2) - get_height l ≥ 2 := by
          rw [show get_height (node rk rv rl rr rh2 rs2) = rh2 from rfl, hrh2,
            get_height_eq hCl]
          omega
        by_cases hD : get_height rl > get_height rr
        · -- double rotation (RL case)
          have hDr : real_height rr < real_height rl := by
            rw [get_height_eq hCrl, get_height_eq hCrr] at hD; exact hD
          have hmaxr : max (real_height rl) (real_height rr) = real_height rl :=
            max_eq_left (le_of_lt hDr)
          have hrl_e : real_height rl = real_height l + 1 := by
            rw [hmaxr] at hAr; omega
          have hrr_e : real_height rr = real_height l := by omega
          cases rl with
          | nil => exfalso; simp at hrl_e; omega
          | node mk2 mv2 ml mr mh2 ms2 =>
              obtain ⟨hCml, hCmr, hmh2, hms2⟩ := (cachedOk_node ..).mp hCrl
              obtain ⟨hOml, hOmr, hkml, hkmr⟩ := (ordered_node ..).mp hOrl
              obtain ⟨hBml, hBmr, hbm1, hbm2⟩ := (balancedR_node ..).mp hBrl
              have hml0 := real_height_nonneg ml
              have hmr0 := real_height_nonneg mr
              have hmaxm1 := le_max_left (real_height ml) (real_height mr)
              have hmaxm2 := le_max_right (real_height ml) (real_height mr)
              have hmaxm := max_choice (real_height ml) (real_height mr)
              have hAm : (1 : Int) + max (real_height ml) (real_height mr) =
                  real_height l + 1 := by simpa using hrl_e
              have hml_le : real_height ml ≤ real_height l := by omega
              have hmr_le : real_height mr ≤ real_height l := by omega
              have hml_ge : real_height l - 1 ≤ real_height ml := by omega
              have hmr_ge : real_height l - 1 ≤ real_height mr := by omega
              have hkmk2 : k < mk2 := hk_rl mk2 (by simp)
              have hmk2rk : mk2 < rk := hkrl mk2 (by simp)
              have hred : rebalance (mk_node k v l
                    (node rk rv (node mk2 mv2 ml mr mh2 ms2) rr rh2 rs2)) =
                  mk_node mk2 mv2 (mk_node k v l ml) (mk_node rk rv mr rr) :=
                rebalance_R_double k rk mk2 v rv mv2 l ml mr rr mh2 ms2 rh2 rs2
                  _ _ hge hD
              rw [hred]
              have hin1 : real_height (mk_node k v l ml) = 1 + real_height l := by
                rw [real_height_mk_node, max_eq_left hml_le]
              have hin2 : real_height (mk_node rk rv mr rr) = 1 + real_height l := by
                rw [real_height_mk_node, hrr_e, max_eq_right hmr_le]
              have hout : real_height (mk_node mk2 mv2 (mk_node k v l ml)
                  (mk_node rk rv mr rr)) = 2 + real_height l := by
                rw [real_height_mk_node, hin1, hin2]; omega
              refine ⟨⟨?_, ?_, ?_⟩, ?_, ?_, ?_, ?_, ?_⟩
              · simp only [mk_node, ordered_node, keys_node]
                refine ⟨⟨hOl, hOml, hkl, fun x hx => hk_rl x (by simp [hx])⟩,
                  ⟨hOmr, hOrr, fun x hx => hkrl x (by simp [hx]), hkrr⟩, ?_, ?_⟩
                · intro x hx
                  simp only [List.mem_append, List.mem_cons] at hx
                  rcases hx with h1 | rfl | h3
                  · exact lt_trans (hkl x h1) hkmk2
                  · exact hkmk2
                  · exact hkml x h3
                · intro x hx
                  simp only [List.mem_append, List.mem_cons] at hx
                  rcases hx with h1 | rfl | h3
                  · exact hkmr x h1
                  · exact hmk2rk
                  · exact lt_trans hmk2rk (hkrr x h3)
              · simp only [mk_node, balancedR_node]
                refine ⟨⟨hBl, hBml, by omega, by omega⟩,
                  ⟨hBmr, hBrr, by omega, by omega⟩, ?_, ?_⟩ <;>
                · simp only [real_height_node]
                  rw [max_eq_left hml_le, max_eq_right (hrr_e ▸ hmr_le)]
                  omega
              · exact mk_node_cachedOk _ _ (mk_node_cachedOk _ _ hCl hCml)
                  (mk_node_cachedOk _ _ hCmr hCrr)
              · simp [List.append_assoc]
              · simp; omega
              · rw [hout]
                simp only [real_height_node]
                omega
              · rw [hout]
                simp only [real_height_node]
                omega
              · intro hx1 hx2
                simp only [real_height_node] at hx2
                omega
        · -- single left rotation
          have hDr : real_height rl ≤ real_height rr := by
            rw [get_height_eq hCrl, get_height_eq hCrr] at hD; omega
          have hmaxr : max (real_height rl) (real_height rr) = real_height rr :=
            max_eq_right hDr
          have hrr_e : real_height rr = real_height l + 1 := by
            rw [hmaxr] at hAr; omega
          have hrl_ge : real_height l ≤ real_height rl := by omega
          have hrl_le : real_height rl ≤ real_height l + 1 := by omega
          have hred : rebalance (mk_node k v l (node rk rv rl rr rh2 rs2)) =
              mk_node rk rv (mk_node k v l rl) rr :=
            rebalance_R_single k rk v rv l rl rr rh2 rs2 _ _ hge hD
          rw [hred]
          have hin : real_height (mk_node k v l rl) = 1 + real_height rl := by
            rw [real_height_mk_node, max_eq_right hrl_ge]
          have hout : real_height (mk_node rk rv (mk_node k v l rl) rr) =
              2 + real_height rl := by
            rw [real_height_mk_node, hin, max_eq_left (by omega)]; omega
          refine ⟨⟨?_, ?_, ?_⟩, ?_, ?_, ?_, ?_, ?_⟩
          · simp only [mk_node, ordered_node, keys_node]
            refine ⟨⟨hOl, hOrl, hkl, hk_rl⟩, hOrr, ?_, hkrr⟩
            intro x hx
            simp only [List.mem_append, List.mem_cons] at hx
            rcases hx with h1 | rfl | h3
            · exact lt_trans (hkl x h1) hkrk
            · exact hkrk
            · exact hkrl x h3
          · simp only [mk_node, balancedR_node]
            refine ⟨⟨hBl, hBrl, by omega, by omega⟩, hBrr, ?_, ?_⟩ <;>
            · simp only [real_height_node]
              rw [max_eq_right hrl_ge]
              omega
          · exact mk_node_cachedOk _ _ (mk_node_cachedOk _ _ hCl hCrl) hCrr
          · simp [List.append_assoc]
          · simp; omega
          · rw [hout]
            simp only [real_height_node]
            omega
          · rw [hout]
            simp only [real_height_node]
            omega
          · intro hx1 hx2
            simp only [real_height_node] at hx2
            omega
  · by_cases hB : real_height l - real_height r ≥ 2
    · -- left-heavy: the balance factor is exactly -2
      have hB2 : real_height l = real_height r + 2 := by omega
      cases l with
      | nil => exfalso; simp at hB2; omega
      | node lk lv ll lr lh2 ls2 =>
          obtain ⟨hCll, hClr, hlh2, hls2⟩ := (cachedOk_node ..).mp hCl
          obtain ⟨hOll, hOlr, hkll, hklr⟩ := (ordered_node ..).mp hOl
          obtain ⟨hBll, hBlr, hbl1, hbl2⟩ := (balancedR_node ..).mp hBl
          have hlkk : lk < k := hkl lk (by simp)
          have hk_ll : ∀ x ∈ keys ll, x < k := fun x hx => hkl x (by simp [hx])
          have hk_lr : ∀ x ∈ keys lr, x < k := fun x hx => hkl x (by simp [hx])
          have hll0 := real_height_nonneg ll
          have hlr0 := real_height_nonneg lr
          have hBl2 : (1 : Int) + max (real_height ll) (real_height lr) =
              real_height r + 2 := by simpa using hB2
          have hle : get_height r - get_height (node lk lv ll lr lh2 ls2) ≤ -2 := by
            rw [show get_height (node lk lv ll lr lh2 ls2) = lh2 from rfl, hlh2,
              get_height_eq hCr]
            omega
          have hnge : ¬ (get_height r - get_height (node lk lv ll lr lh2 ls2) ≥ 2) := by
            rw [show get_height (node lk lv ll lr lh2 ls2) = lh2 from rfl, hlh2,
              get_height_eq hCr]
            omega
          by_cases hD : get_height lr > get_height ll
          · -- double rotation (LR case)
            have hDr : real_height ll < real_height lr := by
              rw [get_height_eq hCll, get_height_eq hClr] at hD; exact hD
            have hmaxl : max (real_height ll) (real_height lr) = real_height lr :=
              max_eq_right (le_of_lt hDr)
            have hlr_e : real_height lr = real_height r + 1 := by
              rw [hmaxl] at hBl2; omega
            have hll_e : real_height ll = real_height r := by omega
            cases lr with
            | nil => exfalso; simp at hlr_e; omega
            | node mk2 mv2 ml mr mh2 ms2 =>
                obtain ⟨hCml, hCmr, hmh2, hms2⟩ := (cachedOk_node ..).mp hClr
                obtain ⟨hOml, hOmr, hkml, hkmr⟩ := (ordered_node ..).mp hOlr
                obtain ⟨hBml, hBmr, hbm1, hbm2⟩ := (balancedR_node ..).mp hBlr
                have hml0 := real_height_nonneg ml
                have hmr0 := real_height_nonneg mr
                have hmaxm1 := le_max_left (real_height ml) (real_height mr)
                have hmaxm2 := le_max_right (real_height ml) (real_height mr)
                have hBm : (1 : Int) + max (real_height ml) (real_height mr) =
                    real_height r + 1 := by simpa using hlr_e
                have hml_le : real_height ml ≤ real_height r := by omega
                have hmr_le : real_height mr ≤ real_height r := by omega
                have hml_ge : real_height r - 1 ≤ real_height ml := by omega
                have hmr_ge : real_height r - 1 ≤ real_height mr := by omega
                have hmk2k : mk2 < k := hk_lr mk2 (by simp)
                have hlkmk2 : lk < mk2 := hklr mk2 (by simp)
                have hred : rebalance (mk_node k v
                      (node lk lv ll (node mk2 mv2 ml mr mh2 ms2) lh2 ls2) r) =
                    mk_node mk2 mv2 (mk_node lk lv ll ml) (mk_node k v mr r) :=
                  rebalance_L_double k lk mk2 v lv mv2 ll ml mr r mh2 ms2 lh2 ls2
                    _ _ hle hnge hD
                rw [hred]
                have hin1 : real_height (mk_node lk lv ll ml) = 1 + real_height r := by
                  rw [real_height_mk_node, hll_e, max_eq_left hml_le]
                have hin2 : real_height (mk_node k v mr r) = 1 + real_height r := by
                  rw [real_height_mk_node, max_eq_right hmr_le]
                have hout : real_height (mk_node mk2 mv2 (mk_node lk lv ll ml)
                    (mk_node k v mr r)) = 2 + real_height r := by
                  rw [real_height_mk_node, hin1, hin2]; omega
                refine ⟨⟨?_, ?_, ?_⟩, ?_, ?_, ?_, ?_, ?_⟩
                · simp only [mk_node, ordered_node, keys_node]
                  refine ⟨⟨hOll, hOml, hkll, fun x hx => hklr x (by simp [hx])⟩,
                    ⟨hOmr, hOr, fun x hx => hk_lr x (by simp [hx]), hkr⟩, ?_, ?_⟩
                  · intro x hx
                    simp only [List.mem_append, List.mem_cons] at hx
                    rcases hx with h1 | rfl | h3
                    · exact lt_trans (hkll x h1) hlkmk2
                    · exact hlkmk2
                    · exact hkml x h3
                  · intro x hx
                    simp only [List.mem_append, List.mem_cons] at hx
                    rcases hx with h1 | rfl | h3
                    · exact hkmr x h1
                    · exact hmk2k
                    · exact lt_trans hmk2k (hkr x h3)
                · simp only [mk_node, balancedR_node]
                  refine ⟨⟨hBll, hBml, by omega, by omega⟩,
                    ⟨hBmr, hBr, by omega, by omega⟩, ?_, ?_⟩ <;>
                  · simp only [real_height_node]
                    rw [hll_e, max_eq_left hml_le, max_eq_right hmr_le]
                    omega
                · exact mk_node_cachedOk _ _ (mk_node_cachedOk _ _ hCll hCml)
                    (mk_node_cachedOk _ _ hCmr hCr)
                · simp [List.append_assoc]
                · simp; omega
                · rw [hout]
                  simp only [real_height_node]
                  omega
                · rw [hout]
                  simp only [real_height_node]
                  omega
                · intro hx1 hx2
                  simp only [real_height_node] at hx1
                  omega
          · -- single right rotation
            have hDr : real_height lr ≤ real_height ll := by
              rw [get_height_eq hCll, get_height_eq hClr] at hD; omega
            have hmaxl : max (real_height ll) (real_height lr) = real_height ll :=
              max_eq_left hDr
            have hll_e : real_height ll = real_height r + 1 := by
              rw [hmaxl] at hBl2; omega
            have hlr_ge : real_height r ≤ real_height lr := by omega
            have hlr_le : real_height lr ≤ real_height r + 1 := by omega
            have hred : rebalance (mk_node k v (node lk lv ll lr lh2 ls2) r) =
                mk_node lk lv ll (mk_node k v lr r) :=
              rebalance_L_single k lk v lv ll lr r lh2 ls2 _ _ hle hnge hD
            rw [hred]
            have hin : real_height (mk_node k v lr r) = 1 + real_height lr := by
              rw [real_height_mk_node, max_eq_left (by omega)]
            have hout : real_height (mk_node lk lv ll (mk_node k v lr r)) =
                2 + real_height lr := by
              rw [real_height_mk_node, hin, max_eq_right (by omega)]; omega
            refine ⟨⟨?_, ?_, ?_⟩, ?_, ?_, ?_, ?_, ?_⟩
            · simp only [mk_node, ordered_node, keys_node]
              refine ⟨hOll, ⟨hOlr, hOr, hk_lr, hkr⟩, hkll, ?_⟩
              intro x hx
              simp only [List.mem_append, List.mem_cons] at hx
              rcases hx with h1 | rfl | h3
              · exact hklr x h1
              · exact hlkk
              · exact lt_trans hlkk (hkr x h3)
            · simp only [mk_node, balancedR_node]
              refine ⟨hBll, ⟨hBlr, hBr, by omega, by omega⟩, ?_, ?_⟩ <;>
              · simp only [real_height_node]
                rw [max_eq_left (show real_height r ≤ real_height lr from by omega)]
                omega
            · exact mk_node_cachedOk _ _ hCll (mk_node_cachedOk _ _ hClr hCr)
            · simp [List.append_assoc]
            · simp; omega
            · rw [hout]
              simp only [real_height_node]
              omega
            · rw [hout]
              simp only [real_height_node]
              omega
            · intro hx1 hx2
              simp only [real_height_node] at hx1
              omega
    · -- balance factor within [-1, 1]: no structural change
      have h1 : ¬ get_balance (mk_node k v l r) ≥ 2 := by
        rw [show get_balance (mk_node k v l r) = get_height r - get_height l
          from rfl, get_height_eq hCl, get_height_eq hCr]
        omega
      have h2 : ¬ get_balance (mk_node k v l r) ≤ -2 := by
        rw [show get_balance (mk_node k v l r) = get_height r - get_height l
          from rfl, get_height_eq hCl, get_height_eq hCr]
        omega
      rw [rebalance_id h1 h2]
      refine ⟨⟨?_, ?_, ?_⟩, ?_, ?_, ?_, ?_, ?_⟩
      · simp only [mk_node, ordered_node]
        exact ⟨hOl, hOr, hkl, hkr⟩
      · simp only [mk_node, balancedR_node]
        exact ⟨hBl, hBr, by omega, by omega⟩
      · exact mk_node_cachedOk _ _ hCl hCr
      · simp
      · simp
      · simp
      · simp
      · intro hx1 hx2
        simp

/-! ### Insert -/

lemma keys_iff_of_inorder_iff {t₁ t₂ : AVLNode K I} {k : K} {v : I}
    (h : ∀ p : K × I, p ∈ inorder t₁ ↔ p = (k, v) ∨ p ∈ inorder t₂) :
    ∀ x, x ∈ keys t₁ ↔ x = k ∨ x ∈ keys t₂ := by
  intro x
  simp only [keys, List.mem_map]
  constructor
  · rintro ⟨p, hp, rfl⟩
    rcases (h p).mp hp with rfl | hpl
    · exact Or.inl rfl
    · exact Or.inr ⟨p, hpl, rfl⟩
  · rintro (h' | ⟨p, hpl, rfl⟩)
    · exact ⟨(k, v), (h _).mpr (Or.inl rfl), h'.symm⟩
    · exact ⟨p, (h p).mpr (Or.inr hpl), rfl⟩

/-- Inserting a key that is already present raises `KeyError` and leaves
the threaded length unchanged. -/
lemma insert_aux_dup {t : AVLNode K I} (hO : Ordered t) {k : K}
    (hk : k ∈ keys t) (v : I) (len : Int) :
    insert_aux t k v len = (Except.error PyErr.keyError, len) := by
  induction t with
  | nil => simp at hk
  | node ck cv l r h s ihl ihr =>
      obtain ⟨hOl, hOr, hkl, hkr⟩ := (ordered_node ..).mp hO
      simp only [keys_node, List.mem_append, List.mem_cons] at hk
      rcases lt_trichotomy k ck with h1 | h1 | h1
      · have hkl' : k ∈ keys l := by
          rcases hk with hx | hx | hx
          · exact hx
          · exact absurd h1 (by simp [hx])
          · exact absurd (hkr k hx) (by intro hcon; exact absurd (lt_trans h1 hcon) (lt_irrefl k))
        simp only [insert_aux]
        rw [if_pos h1, ihl hOl hkl']
      · simp only [insert_aux]
        rw [if_neg (by simp [h1]), if_neg (by simp [h1])]
      · have hkr' : k ∈ keys r := by
          rcases hk with hx | hx | hx
          · exact absurd (hkl k hx) (by intro hcon; exact absurd (lt_trans h1 hcon) (lt_irrefl ck))
          · exact absurd h1 (by simp [hx])
          · exact hx
        simp only [insert_aux]
        rw [if_neg (not_lt_of_gt h1), if_pos h1, ihr hOr hkr']

set_option maxHeartbeats 1600000 in
/-- Inserting an absent key succeeds: the length counter goes up by one
and the resulting tree satisfies all invariants, contains exactly the old
pairs plus the new one, and grows in height by at most one. -/
lemma insert_aux_ok {t : AVLNode K I} (hG : Good t) {k : K}
    (hk : k ∉ keys t) (v : I) (len : Int) :
    ∃ t', insert_aux t k v len = (Except.ok t', len + 1) ∧ Good t' ∧
      (∀ p : K × I, p ∈ inorder t' ↔ p = (k, v) ∨ p ∈ inorder t) ∧
      num_nodes t' = num_nodes t + 1 ∧
      real_height t ≤ real_height t' ∧ real_height t' ≤ real_height t + 1 := by
  induction t with
  | nil =>
      refine ⟨mk_node k v nil nil, ?_, ?_, ?_, ?_, ?_, ?_⟩
      · simp only [insert_aux]
        rw [rebalance_id (by norm_num [get_balance, mk_node, get_height])
          (by norm_num [get_balance, mk_node, get_height])]
      · refine ⟨by simp [mk_node], by simp [mk_node], mk_node_cachedOk _ _ trivial trivial⟩
      · intro p; simp
      · simp
      · simp [mk_node]
      · simp [mk_node]
  | node ck cv l r h s ihl ihr =>
      obtain ⟨hO, hB, hC⟩ := hG
      obtain ⟨hOl, hOr, hkl, hkr⟩ := (ordered_node ..).mp hO
      obtain ⟨hBl, hBr, hb1, hb2⟩ := (balancedR_node ..).mp hB
      obtain ⟨hCl, hCr, hch, hcs⟩ := (cachedOk_node ..).mp hC
      simp only [keys_node, List.mem_append, List.mem_cons, not_or] at hk
      obtain ⟨hknl, hkne, hknr⟩ := hk
      rcases lt_trichotomy k ck with h1 | h1 | h1
      · obtain ⟨l', heq, hG', hmem, hnn, hh1, hh2⟩ := ihl ⟨hOl, hBl, hCl⟩ hknl
        obtain ⟨hO', hB', hC'⟩ := hG'
        have hkeys' := keys_iff_of_inorder_iff hmem
        have hkl' : ∀ x ∈ keys l', x < ck := by
          intro x hx
          rcases (hkeys' x).mp hx with rfl | hx'
          · exact h1
          · exact hkl x hx'
        obtain ⟨Grb, hio, hnnrb, hlow, hup, hexact⟩ :=
          rebalance_spec ck cv l' r hO' hOr hkl' hkr hB' hBr hC' hCr
            (by omega) (by omega)
        refine ⟨rebalance (mk_node ck cv l' r), ?_, Grb, ?_, ?_, ?_, ?_⟩
        · simp only [insert_aux]
          rw [if_pos h1, heq]
        · intro p
          rw [hio]
          simp only [inorder_node, List.mem_append, List.mem_cons, hmem p]
          tauto
        · rw [hnnrb]
          simp
          omega
        · by_cases hc : real_height l' - real_height r ≤ 1 ∧
              real_height r - real_height l' ≤ 1
          · have he := hexact hc.1 hc.2
            simp only [real_height_node]
            omega
          · rcases not_and_or.mp hc with hc' | hc' <;>
              (simp only [real_height_node]; push_neg at hc'; omega)
        · simp only [real_height_node]
          omega
      · exact absurd h1 hkne
      · obtain ⟨r', heq, hG', hmem, hnn, hh1, hh2⟩ := ihr ⟨hOr, hBr, hCr⟩ hknr
        obtain ⟨hO', hB', hC'⟩ := hG'
        have hkeys' := keys_iff_of_inorder_iff hmem
        have hkr' : ∀ x ∈ keys r', ck < x := by
          intro x hx
          rcases (hkeys' x).mp hx with rfl | hx'
          · exact h1
          · exact hkr x hx'
        obtain ⟨Grb, hio, hnnrb, hlow, hup, hexact⟩ :=
          rebalance_spec ck cv l r' hOl hO' hkl hkr' hBl hB' hCl hC'
            (by omega) (by omega)
        refine ⟨rebalance (mk_node ck cv l r'), ?_, Grb, ?_, ?_, ?_, ?_⟩
        · simp only [insert_aux]
          rw [if_neg (not_lt_of_gt h1), if_pos h1, heq]
        · intro p
          rw [hio]
          simp only [inorder_node, List.mem_append, List.mem_cons, hmem p]
          tauto
        · rw [hnnrb]
          simp
          omega
        · by_cases hc : real_height l - real_height r' ≤ 1 ∧
              real_height r' - real_height l ≤ 1
          · have he := hexact hc.1 hc.2
            simp only [real_height_node]
            omega
          · rcases not_and_or.mp hc with hc' | hc' <;>
              (simp only [real_height_node]; push_neg at hc'; omega)
        · simp only [real_height_node]
          omega

/-! ### Delete -/

/-- The BST invariant implies strictly ascending in-order keys. -/
lemma ordered_pairwise {t : AVLNode K I} (hO : Ordered t) :
    (keys t).Pairwise (· < ·) := by
  induction t with
  | nil => simp
  | node k v l r h s ihl ihr =>
      obtain ⟨hOl, hOr, hkl, hkr⟩ := (ordered_node ..).mp hO
      simp only [keys_node]
      rw [List.pairwise_append]
      refine ⟨ihl hOl, ?_, ?_⟩
      · rw [List.pairwise_cons]
        exact ⟨hkr, ihr hOr⟩
      · intro x hx y hy
        rcases List.mem_cons.mp hy with rfl | hy'
        · exact hkl x hx
        · exact lt_trans (hkl x hx) (hkr y hy')

lemma leftmost_pair_node (k : K) (v : I) (l r : AVLNode K I) (h s : Int) :
    leftmost_pair (node k v l r h s) =
      match leftmost_pair l with
      | none => some (k, v)
      | some p => some p := rfl

/-- On a nonempty subtree, `leftmost_pair` returns the head of the
in-order traversal. -/
lemma leftmost_pair_cons : ∀ (t : AVLNode K I), t ≠ nil →
    ∃ sk sv rest, leftmost_pair t = some (sk, sv) ∧
      inorder t = (sk, sv) :: rest := by
  intro t
  induction t with
  | nil => intro hcon; exact absurd rfl hcon
  | node k v l r h s ihl ihr =>
      intro _
      cases l with
      | nil =>
          exact ⟨k, v, inorder r, by simp [leftmost_pair], by simp⟩
      | node lk lv ll lr lh2 ls2 =>
          obtain ⟨sk, sv, rest, h1, h2⟩ := ihl (by simp)
          refine ⟨sk, sv, rest ++ (k, v) :: inorder r, ?_, ?_⟩
          · rw [leftmost_pair_node, h1]
          · simp [h2]

lemma keys_of_filter {t' t : AVLNode K I} {q : K × I → Bool}
    (h : inorder t' = (inorder t).filter q) : ∀ x ∈ keys t', x ∈ keys t := by
  intro x hx
  simp only [keys, List.mem_map] at hx ⊢
  obtain ⟨p, hp, rfl⟩ := hx
  exact ⟨p, List.mem_of_mem_filter (h ▸ hp), rfl⟩

/-- Deleting an absent key raises `ValueError` and leaves the threaded
length unchanged. -/
lemma delete_aux_absent {t : AVLNode K I} {k : K}
    (hk : k ∉ keys t) (len : Int) :
    delete_aux t k len = (Except.error PyErr.valueError, len) := by
  induction t with
  | nil => rfl
  | node ck cv l r h s ihl ihr =>
      simp only [keys_node, List.mem_append, List.mem_cons, not_or] at hk
      obtain ⟨hknl, hkne, hknr⟩ := hk
      rcases lt_trichotomy k ck with h1 | h1 | h1
      · simp only [delete_aux]
        rw [if_pos h1, ihl hknl]
      · exact absurd h1 hkne
      · simp only [delete_aux]
        rw [if_neg (not_lt_of_gt h1), if_pos h1, ihr hknr]

set_option maxHeartbeats 3200000 in
/-- Deleting a present key succeeds: the length counter goes down by one,
the invariants hold afterwards, the in-order pairs are the old ones with
the deleted key's pair removed, and the height shrinks by at most one.
In the two-children case the matched node's key/value are replaced by the
in-order successor's pair and the successor's original node is excised
from the right subtree, which is exactly what the filter equation says. -/
lemma delete_aux_ok (t : AVLNode K I) : Good t → ∀ (k : K), k ∈ keys t →
    ∀ (len : Int),
    ∃ t', delete_aux t k len = (Except.ok t', len - 1) ∧ Good t' ∧
      inorder t' = (inorder t).filter (fun p => decide (p.1 ≠ k)) ∧
      num_nodes t' = num_nodes t - 1 ∧
      real_height t - 1 ≤ real_height t' ∧ real_height t' ≤ real_height t := by
  induction t with
  | nil => intro _ k hk; simp at hk
  | node ck cv l r h s ihl ihr =>
      intro hG k hk len
      obtain ⟨hO, hB, hC⟩ := hG
      obtain ⟨hOl, hOr, hkl, hkr⟩ := (ordered_node ..).mp hO
      obtain ⟨hBl, hBr, hb1, hb2⟩ := (balancedR_node ..).mp hB
      obtain ⟨hCl, hCr, hch, hcs⟩ := (cachedOk_node ..).mp hC
      simp only [keys_node, List.mem_append, List.mem_cons] at hk
      rcases lt_trichotomy k ck with h1 | h1 | h1
      · -- recurse into the left subtree
        have hkmem : k ∈ keys l := by
          rcases hk with hx | hx | hx
          · exact hx
          · exact absurd hx (by intro hcon; rw [hcon] at h1; exact lt_irrefl ck h1)
          · exact absurd (hkr k hx) (fun hcon => lt_irrefl k (lt_trans h1 hcon))
        obtain ⟨l', heq, hG', hio', hnn, hh1, hh2⟩ := ihl ⟨hOl, hBl, hCl⟩ k hkmem len
        obtain ⟨hO', hB', hC'⟩ := hG'
        have hkl' : ∀ x ∈ keys l', x < ck :=
          fun x hx => hkl x (keys_of_filter hio' x hx)
        obtain ⟨Grb, hiorb, hnnrb, hlow, hup, hexact⟩ :=
          rebalance_spec ck cv l' r hO' hOr hkl' hkr hB' hBr hC' hCr
            (by omega) (by omega)
        refine ⟨rebalance (mk_node ck cv l' r), ?_, Grb, ?_, ?_, ?_, ?_⟩
        · simp only [delete_aux]
          rw [if_pos h1, heq]
        · rw [hiorb, hio']
          have hqc : (decide (ck ≠ k)) = true := by
            simp only [decide_eq_true_eq]
            exact ne_of_gt h1
          have hqr : (inorder r).filter (fun p => decide (p.1 ≠ k)) = inorder r := by
            refine List.filter_eq_self.mpr ?_
            intro p hp
            simp only [decide_eq_true_eq]
            exact ne_of_gt (lt_trans h1 (hkr p.1 (by
              simp only [keys, List.mem_map]; exact ⟨p, hp, rfl⟩)))
          simp only [inorder_node, List.filter_append, List.filter_cons, hqc,
            if_true, hqr]
        · rw [hnnrb]
          simp
          omega
        · by_cases hc : real_height l' - real_height r ≤ 1 ∧
              real_height r - real_height l' ≤ 1
          · have he := hexact hc.1 hc.2
            simp only [real_height_node]
            omega
          · rcases not_and_or.mp hc with hc' | hc' <;>
              (simp only [real_height_node]; push_neg at hc'; omega)
        · simp only [real_height_node]
          omega
      · -- the key is at this node
        subst h1
        cases l with
        | nil =>
            cases r with
            | nil =>
                refine ⟨nil, ?_, ⟨trivial, trivial, trivial⟩, ?_, ?_, ?_, ?_⟩
                · simp only [delete_aux]
                  rw [if_neg (lt_irrefl k), if_neg (lt_irrefl k)]
                · simp
                · simp only [num_nodes_node, num_nodes_nil]
                  omega
                · simp only [real_height_node, real_height_nil]
                  omega
                · simp only [real_height_node, real_height_nil]
                  omega
            | node rk rv rl rr rh2 rs2 =>
                refine ⟨node rk rv rl rr rh2 rs2, ?_, ⟨hOr, hBr, hCr⟩, ?_, ?_, ?_, ?_⟩
                · simp only [delete_aux]
                  rw [if_neg (lt_irrefl k), if_neg (lt_irrefl k)]
                · have hqr : (inorder (node rk rv rl rr rh2 rs2)).filter
                      (fun p => decide (p.1 ≠ k)) = inorder (node rk rv rl rr rh2 rs2) := by
                    refine List.filter_eq_self.mpr ?_
                    intro p hp
                    simp only [decide_eq_true_eq]
                    exact ne_of_gt (hkr p.1 (by
                      simp only [keys, List.mem_map]; exact ⟨p, hp, rfl⟩))
                  rw [show inorder (node k cv nil (node rk rv rl rr rh2 rs2) h s) =
                    (k, cv) :: inorder (node rk rv rl rr rh2 rs2) from by simp]
                  rw [List.filter_cons, if_neg (by simp), hqr]
                · simp only [num_nodes_node, num_nodes_nil]
                  omega
                · have hrX := real_height_nonneg (node rk rv rl rr rh2 rs2)
                  simp only [real_height_node, real_height_nil] at hrX ⊢
                  omega
                · simp only [real_height_node, real_height_nil]
                  omega
        | node lk lv ll lr lh2 ls2 =>
            cases r with
            | nil =>
                refine ⟨node lk lv ll lr lh2 ls2, ?_, ⟨hOl, hBl, hCl⟩, ?_, ?_, ?_, ?_⟩
                · simp only [delete_aux]
                  rw [if_neg (lt_irrefl k), if_neg (lt_irrefl k)]
                · have hql : (inorder (node lk lv ll lr lh2 ls2)).filter
                      (fun p => decide (p.1 ≠ k)) = inorder (node lk lv ll lr lh2 ls2) := by
                    refine List.filter_eq_self.mpr ?_
                    intro p hp
                    simp only [decide_eq_true_eq]
                    exact ne_of_lt (hkl p.1 (by
                      simp only [keys, List.mem_map]; exact ⟨p, hp, rfl⟩))
                  rw [show inorder (node k cv (node lk lv ll lr lh2 ls2) nil h s) =
                    inorder (node lk lv ll lr lh2 ls2) ++ [(k, cv)] from by simp]
                  rw [List.filter_append, hql]
                  rw [show List.filter (fun p => decide (p.1 ≠ k)) [(k, cv)] = []
                    from by simp]
                  simp
                · simp only [num_nodes_node, num_nodes_nil]
                  omega
                · have hrX := real_height_nonneg (node lk lv ll lr lh2 ls2)
                  simp only [real_height_node, real_height_nil] at hrX ⊢
                  omega
                · simp only [real_height_node, real_height_nil]
                  omega
            | node rk rv rl rr rh2 rs2 =>
                -- two children: replace with the in-order successor
                obtain ⟨sk, sv, rest, hlm, hrio⟩ :=
                  leftmost_pair_cons (node rk rv rl rr rh2 rs2) (by simp)
                have hkeysr : keys (node rk rv rl rr rh2 rs2) =
                    sk :: rest.map Prod.fst := by
                  simp only [keys, hrio, List.map_cons]
                have hsk_mem : sk ∈ keys (node rk rv rl rr rh2 rs2) := by
                  rw [hkeysr]
                  exact List.mem_cons_self _ _
                have hpw := ordered_pairwise hOr
                have hrest_gt : ∀ y ∈ rest.map Prod.fst, sk < y := by
                  rw [hkeysr] at hpw
                  exact (List.pairwise_cons.mp hpw).1
                obtain ⟨r', heqr, hGr', hior', hnnr, hhr1, hhr2⟩ :=
                  ihr ⟨hOr, hBr, hCr⟩ sk hsk_mem len
                obtain ⟨hOr', hBr', hCr'⟩ := hGr'
                have hksk : k < sk := hkr sk hsk_mem
                have hkl_sk : ∀ x ∈ keys (node lk lv ll lr lh2 ls2), x < sk :=
                  fun x hx => lt_trans (hkl x hx) hksk
                have hkr_sk : ∀ x ∈ keys r', sk < x := by
                  intro x hx
                  simp only [keys, List.mem_map] at hx
                  obtain ⟨p, hp, rfl⟩ := hx
                  rw [hior'] at hp
                  have hne : p.1 ≠ sk := by
                    have := List.of_mem_filter hp
                    simpa using this
                  have hmem : p.1 ∈ keys (node rk rv rl rr rh2 rs2) := by
                    simp only [keys, List.mem_map]
                    exact ⟨p, List.mem_of_mem_filter hp, rfl⟩
                  rw [hkeysr, List.mem_cons] at hmem
                  rcases hmem with hx1 | hx2
                  · exact absurd hx1 hne
                  · exact hrest_gt _ hx2
                obtain ⟨Grb, hiorb, hnnrb, hlow, hup, hexact⟩ :=
                  rebalance_spec sk sv (node lk lv ll lr lh2 ls2) r'
                    hOl hOr' hkl_sk hkr_sk hBl hBr' hCl hCr'
                    (by omega) (by omega)
                have hior_rest : inorder r' = rest := by
                  rw [hior', hrio]
                  simp only [List.filter_cons]
                  have : (decide (sk ≠ sk)) = false := by simp
                  rw [this]
                  simp only [Bool.false_eq_true, if_false]
                  refine List.filter_eq_self.mpr ?_
                  intro p hp
                  simp only [decide_eq_true_eq]
                  have : p.1 ∈ rest.map Prod.fst := List.mem_map_of_mem _ hp
                  exact ne_of_gt (hrest_gt _ this)
                refine ⟨rebalance (mk_node sk sv (node lk lv ll lr lh2 ls2) r'),
                  ?_, Grb, ?_, ?_, ?_, ?_⟩
                · simp only [delete_aux]
                  rw [if_neg (lt_irrefl k), if_neg (lt_irrefl k), hlm]
                  split
                  · rename_i sk2 sv2 hx0
                    injection hx0 with hx0
                    injection hx0 with ha hb
                    subst ha
                    subst hb
                    split
                    · rename_i r2 len2 hx
                      have hx' : delete_aux (node rk rv rl rr rh2 rs2) sk len =
                          (Except.ok r2, len2) := hx
                      rw [heqr] at hx'
                      injection hx' with h1 h2
                      injection h1 with h1
                      subst h1
                      subst h2
                      rfl
                    · rename_i e len2 hx
                      have hx' : delete_aux (node rk rv rl rr rh2 rs2) sk len =
                          (Except.error e, len2) := hx
                      rw [heqr] at hx'
                      exact absurd hx' (by simp)
                  · rename_i hx0
                    exact absurd hx0 (by simp)
                · rw [hiorb, hior_rest]
                  have hql : (inorder (node lk lv ll lr lh2 ls2)).filter
                      (fun p => decide (p.1 ≠ k)) =
                      inorder (node lk lv ll lr lh2 ls2) := by
                    refine List.filter_eq_self.mpr ?_
                    intro p hp
                    simp only [decide_eq_true_eq]
                    exact ne_of_lt (hkl p.1 (by
                      simp only [keys, List.mem_map]; exact ⟨p, hp, rfl⟩))
                  have hqr : (inorder (node rk rv rl rr rh2 rs2)).filter
                      (fun p => decide (p.1 ≠ k)) =
                      inorder (node rk rv rl rr rh2 rs2) := by
                    refine List.filter_eq_self.mpr ?_
                    intro p hp
                    simp only [decide_eq_true_eq]
                    exact ne_of_gt (hkr p.1 (by
                      simp only [keys, List.mem_map]; exact ⟨p, hp, rfl⟩))
                  rw [show inorder (node k cv (node lk lv ll lr lh2 ls2)
                      (node rk rv rl rr rh2 rs2) h s) =
                      inorder (node lk lv ll lr lh2 ls2) ++
                        (k, cv) :: inorder (node rk rv rl rr rh2 rs2) from rfl]
                  rw [List.filter_append, hql]
                  simp only [List.filter_cons]
                  rw [show (decide (k ≠ k)) = false from by simp]
                  simp only [Bool.false_eq_true, if_false]
                  rw [hqr, hrio]
                · rw [hnnrb]
                  simp only [num_nodes_node] at hnnr ⊢
                  omega
                · by_cases hc : real_height (node lk lv ll lr lh2 ls2) -
                      real_height r' ≤ 1 ∧
                      real_height r' - real_height (node lk lv ll lr lh2 ls2) ≤ 1
                  · have he := hexact hc.1 hc.2
                    simp only [real_height_node] at *
                    omega
                  · rcases not_and_or.mp hc with hc' | hc' <;>
                      (simp only [real_height_node] at *; push_neg at hc'; omega)
                · simp only [real_height_node] at *
                  omega
      · -- recurse into the right subtree
        have hkmem : k ∈ keys r := by
          rcases hk with hx | hx | hx
          · exact absurd (hkl k hx) (fun hcon => lt_irrefl ck (lt_trans h1 hcon))
          · exact absurd hx (by intro hcon; rw [hcon] at h1; exact lt_irrefl ck h1)
          · exact hx
        obtain ⟨r', heq, hG', hio', hnn, hh1, hh2⟩ := ihr ⟨hOr, hBr, hCr⟩ k hkmem len
        obtain ⟨hO', hB', hC'⟩ := hG'
        have hkr' : ∀ x ∈ keys r', ck < x :=
          fun x hx => hkr x (keys_of_filter hio' x hx)
        obtain ⟨Grb, hiorb, hnnrb, hlow, hup, hexact⟩ :=
          rebalance_spec ck cv l r' hOl hO' hkl hkr' hBl hB' hCl hC'
            (by omega) (by omega)
        refine ⟨rebalance (mk_node ck cv l r'), ?_, Grb, ?_, ?_, ?_, ?_⟩
        · simp only [delete_aux]
          rw [if_neg (not_lt_of_gt h1), if_pos h1, heq]
        · rw [hiorb, hio']
          have hqc : (decide (ck ≠ k)) = true := by
            simp only [decide_eq_true_eq]
            exact ne_of_lt h1
          have hql : (inorder l).filter (fun p => decide (p.1 ≠ k)) = inorder l := by
            refine List.filter_eq_self.mpr ?_
            intro p hp
            simp only [decide_eq_true_eq]
            exact ne_of_lt (lt_trans (hkl p.1 (by
              simp only [keys, List.mem_map]; exact ⟨p, hp, rfl⟩)) h1)
          simp only [inorder_node, List.filter_append, List.filter_cons, hqc,
            if_true, hql]
        · rw [hnnrb]
          simp
          omega
        · by_cases hc : real_height l - real_height r' ≤ 1 ∧
              real_height r' - real_height l ≤ 1
          · have he := hexact hc.1 hc.2
            simp only [real_height_node]
            omega
          · rcases not_and_or.mp hc with hc' | hc' <;>
              (simp only [real_height_node]; push_neg at hc'; omega)
        · simp only [real_height_node]
          omega

/-! ### Lookup and maximum -/

/-- Modelled-from-spec BST search finds a stored pair (BST order). -/
lemma find_aux_some {t : AVLNode K I} (hO : Ordered t) {k : K} {v : I}
    (hmem : (k, v) ∈ inorder t) : find_aux t k = some v := by
  induction t with
  | nil => simp at hmem
  | node ck cv l r h s ihl ihr =>
      obtain ⟨hOl, hOr, hkl, hkr⟩ := (ordered_node ..).mp hO
      simp only [inorder_node, List.mem_append, List.mem_cons] at hmem
      rcases hmem with hm | hm | hm
      · have hklt : k < ck := hkl k (by
          simp only [keys, List.mem_map]
          exact ⟨(k, v), hm, rfl⟩)
        simp only [find_aux]
        rw [if_pos hklt]
        exact ihl hOl hm
      · obtain ⟨h1, h2⟩ := Prod.mk.injEq .. ▸ hm
        subst h1
        subst h2
        simp only [find_aux]
        rw [if_neg (lt_irrefl k), if_neg (lt_irrefl k)]
      · have hkgt : ck < k := hkr k (by
          simp only [keys, List.mem_map]
          exact ⟨(k, v), hm, rfl⟩)
        simp only [find_aux]
        rw [if_neg (not_lt_of_gt hkgt), if_pos hkgt]
        exact ihr hOr hm

/-- Descending right children from a nonempty BST-ordered tree reaches
the pair with the greatest key. -/
lemma get_max_aux_spec {t : AVLNode K I} (hO : Ordered t) (hne : t ≠ nil) :
    ∃ km vm, get_max_aux t = Except.ok (km, vm) ∧ (km, vm) ∈ inorder t ∧
      ∀ x ∈ keys t, x ≤ km := by
  induction t with
  | nil => exact absurd rfl hne
  | node k v l r h s ihl ihr =>
      obtain ⟨hOl, hOr, hkl, hkr⟩ := (ordered_node ..).mp hO
      cases r with
      | nil =>
          refine ⟨k, v, rfl, by simp, ?_⟩
          intro x hx
          simp only [keys_node, keys_nil, List.mem_append, List.mem_cons] at hx
          rcases hx with hx | hx | hx
          · exact le_of_lt (hkl x hx)
          · exact le_of_eq hx
          · simp at hx
      | node rk rv rl rr rh2 rs2 =>
          obtain ⟨km, vm, heq, hmem, hmax⟩ := ihr hOr (by simp)
          refine ⟨km, vm, ?_, ?_, ?_⟩
          · rw [show get_max_aux (node k v l (node rk rv rl rr rh2 rs2) h s) =
              get_max_aux (node rk rv rl rr rh2 rs2) from rfl]
            exact heq
          · simp only [inorder_node, List.mem_append, List.mem_cons]
            right
            right
            simpa using hmem
          · have hkkm : k < km := hkr km (by
              simp only [keys, List.mem_map]
              exact ⟨(km, vm), hmem, rfl⟩)
            intro x hx
            simp only [keys_node, List.mem_append, List.mem_cons] at hx
            rcases hx with hx | hx | hx
            · exact le_of_lt (lt_trans (hkl x hx) hkkm)
            · exact le_of_lt (hx ▸ hkkm)
            · exact hmax x (by simpa using hx)

/-! ### Rank-based range query -/

/-- Specification-side window function: the elements of `xs` whose
0-based global positions (starting at `base`) lie in `[i, j]`. -/
def window (xs : List I) (base i j : Int) : List I :=
  match xs with
  | [] => []
  | x :: rest =>
      (if i ≤ base ∧ base ≤ j then [x] else []) ++ window rest (base + 1) i j

@[simp] lemma window_nil (base i j : Int) :
    window ([] : List I) base i j = [] := rfl

lemma window_cons (x : I) (xs : List I) (base i j : Int) :
    window (x :: xs) base i j =
      (if i ≤ base ∧ base ≤ j then [x] else []) ++ window xs (base + 1) i j := rfl

lemma items_length (t : AVLNode K I) :
    ((items t).length : Int) = num_nodes t := by
  rw [num_nodes_eq_length]
  simp [items]

lemma window_out_high (xs : List I) : ∀ (base i j : Int), j < base →
    window xs base i j = [] := by
  induction xs with
  | nil => intro base i j _; rfl
  | cons x rest ih =>
      intro base i j hj
      rw [window_cons, if_neg (by omega), ih (base + 1) i j (by omega)]
      rfl

lemma window_out_low (xs : List I) : ∀ (base i j : Int),
    base + (xs.length : Int) - 1 < i → window xs base i j = [] := by
  induction xs with
  | nil => intro base i j _; rfl
  | cons x rest ih =>
      intro base i j hi
      simp only [List.length_cons] at hi
      rw [window_cons, if_neg (by push_cast at hi ⊢; omega),
        ih (base + 1) i j (by push_cast at hi ⊢; omega)]
      rfl

lemma window_append (xs ys : List I) : ∀ (base i j : Int),
    window (xs ++ ys) base i j =
      window xs base i j ++ window ys (base + (xs.length : Int)) i j := by
  induction xs with
  | nil => intro base i j; simp
  | cons x rest ih =>
      intro base i j
      simp only [List.cons_append, window_cons, ih (base + 1) i j,
        List.length_cons, List.append_assoc]
      have : base + 1 + (rest.length : Int) = base + ((rest.length : Int) + 1) := by
        omega
      rw [this]
      push_cast
      ring_nf

/-- The `current_index` computation of `range_between_aux` (avl.py lines
258-263): `max_index` when there is no right child, else
`max_index - right.tree_size`. -/
def current_index (rt : AVLNode K I) (m : Int) : Int :=
  match rt with
  | nil => m
  | node _ _ _ _ _ rs => m - rs

lemma current_index_eq (rt : AVLNode K I) (m : Int) (hCr : CachedOk rt) :
    current_index rt m = m - num_nodes rt := by
  cases rt with
  | nil => simp [current_index]
  | node rk2 rv2 rl2 rr2 rh3 rs3 =>
      obtain ⟨_, _, _, hrs⟩ := (cachedOk_node ..).mp hCr
      simp [current_index, hrs]

lemma range_between_aux_node (ck : K) (cv : I) (lt rt : AVLNode K I)
    (hh ss i j m : Int) (l : List I) :
    range_between_aux (node ck cv lt rt hh ss) i j m l =
      if current_index rt m < j then
        range_between_aux rt i j m
          (if i ≤ current_index rt m ∧ current_index rt m ≤ j then
             (if current_index rt m > i then
                range_between_aux lt i j (current_index rt m - 1) l else l) ++ [cv]
           else if current_index rt m > i then
             range_between_aux lt i j (current_index rt m - 1) l else l)
      else
        if i ≤ current_index rt m ∧ current_index rt m ≤ j then
          (if current_index rt m > i then
             range_between_aux lt i j (current_index rt m - 1) l else l) ++ [cv]
        else if current_index rt m > i then
          range_between_aux lt i j (current_index rt m - 1) l else l := by
  cases rt with
  | nil => rfl
  | node rk2 rv2 rl2 rr2 rh3 rs3 => rfl

/-- Function `range_between_aux` collects exactly the items whose global rank lies
in `[i, j]`, provided the cached sizes are correct and `m` is the rank of
the subtree's rightmost element. -/
lemma range_aux_spec (t : AVLNode K I) (hC : CachedOk t) :
    ∀ (i j m : Int) (acc : List I),
    range_between_aux t i j m acc =
      acc ++ window (items t) (m + 1 - num_nodes t) i j := by
  induction t with
  | nil => intro i j m acc; simp [range_between_aux, items, inorder]
  | node ck cv lt rt h s ihl ihr =>
      intro i j m acc
      obtain ⟨hCl, hCr, hch, hcs⟩ := (cachedOk_node ..).mp hC
      have hlen_l := items_length lt
      rw [range_between_aux_node ck cv lt rt h s i j m acc,
        current_index_eq rt m hCr]
      have hitems : items (node ck cv lt rt h s) = items lt ++ cv :: items rt := by
        simp [items, inorder_node]
      rw [hitems, window_append, window_cons]
      simp only [num_nodes_node, ihl hCl, ihr hCr]
      simp only [show m + 1 - (1 + num_nodes lt + num_nodes rt) +
            ((items lt).length : Int) = m - num_nodes rt from by rw [hlen_l]; ring,
        show m - num_nodes rt - 1 + 1 - num_nodes lt
            = m + 1 - (1 + num_nodes lt + num_nodes rt) from by ring,
        show m - num_nodes rt + 1 = m + 1 - num_nodes rt from by ring]
      by_cases hgt : m - num_nodes rt > i
      · by_cases hmid : i ≤ m - num_nodes rt ∧ m - num_nodes rt ≤ j
        · by_cases hlt : m - num_nodes rt < j
          · simp only [if_pos hgt, if_pos hmid, if_pos hlt, List.append_assoc,
              List.singleton_append]
          · have hje : window (items rt) (m + 1 - num_nodes rt) i j = [] :=
              window_out_high _ _ _ _ (by omega)
            simp only [if_pos hgt, if_pos hmid, if_neg hlt, hje, List.append_nil,
              List.append_assoc, List.singleton_append]
        · by_cases hlt : m - num_nodes rt < j
          · simp only [if_pos hgt, if_neg hmid, if_pos hlt, List.nil_append,
              List.append_assoc]
          · have hje : window (items rt) (m + 1 - num_nodes rt) i j = [] :=
              window_out_high _ _ _ _ (by omega)
            simp only [if_pos hgt, if_neg hmid, if_neg hlt, hje, List.append_nil,
              List.nil_append, List.append_assoc]
      · have hwl : window (items lt) (m + 1 - (1 + num_nodes lt + num_nodes rt)) i j
            = [] := by
          apply window_out_low
          rw [hlen_l]
          omega
        by_cases hmid : i ≤ m - num_nodes rt ∧ m - num_nodes rt ≤ j
        · by_cases hlt : m - num_nodes rt < j
          · simp only [if_neg hgt, if_pos hmid, if_pos hlt, hwl, List.nil_append,
              List.append_nil, List.append_assoc, List.singleton_append]
          · have hje : window (items rt) (m + 1 - num_nodes rt) i j = [] :=
              window_out_high _ _ _ _ (by omega)
            simp only [if_neg hgt, if_pos hmid, if_neg hlt, hwl, hje,
              List.append_nil, List.nil_append, List.append_assoc,
              List.singleton_append]
        · by_cases hlt : m - num_nodes rt < j
          · simp only [if_neg hgt, if_neg hmid, if_pos hlt, hwl, List.nil_append,
              List.append_assoc]
          · have hje : window (items rt) (m + 1 - num_nodes rt) i j = [] :=
              window_out_high _ _ _ _ (by omega)
            simp only [if_neg hgt, if_neg hmid, if_neg hlt, hwl, hje,
              List.append_nil, List.nil_append, List.append_assoc]

/-- The window starting at `base` is a contiguous slice. -/
lemma window_eq (xs : List I) : ∀ (base i j : Int),
    window xs base i j =
      (xs.drop (i - base).toNat).take (j - max i base + 1).toNat := by
  induction xs with
  | nil => intro base i j; simp
  | cons x rest ih =>
      intro base i j
      rw [window_cons]
      by_cases hib : i ≤ base
      · have hmax : max i base = base := max_eq_right hib
        by_cases hbj : base ≤ j
        · rw [if_pos ⟨hib, hbj⟩, ih (base + 1) i j]
          have h0 : (i - base).toNat = 0 := by omega
          have h0' : (i - (base + 1)).toNat = 0 := by omega
          have hmax2 : max i (base + 1) = base + 1 := max_eq_right (by omega)
          have hc : (j - max i base + 1).toNat =
              (j - max i (base + 1) + 1).toNat + 1 := by
            rw [hmax, hmax2]
            omega
          rw [h0, h0', hc]
          simp
        · rw [if_neg (fun hc => hbj hc.2)]
          rw [window_out_high rest (base + 1) i j (by omega)]
          have hz : (j - max i base + 1).toNat = 0 := by
            rw [hmax]; omega
          rw [hz]
          simp
      · rw [if_neg (fun hc => hib hc.1), ih (base + 1) i j]
        have h1 : (i - base).toNat = (i - (base + 1)).toNat + 1 := by omega
        have hmax : max i base = i := max_eq_left (by omega)
        have hmax2 : max i (base + 1) = i := max_eq_left (by omega)
        rw [h1, hmax, hmax2]
        simp

/-! ### Tree-level operations and invariants -/

/-- The whole-object invariant: the root satisfies the structural
invariants and the `length` counter counts the nodes. -/
def GoodTree (t : AVLTree K I) : Prop :=
  Good t.root ∧ t.length = num_nodes t.root

/-- A single public mutating operation. -/
inductive TreeOp (K I : Type) where
  | ins (k : K) (v : I) : TreeOp K I
  | del (k : K) : TreeOp K I

/-- Run one operation; `none` when the operation raised. -/
def applyOp (t : AVLTree K I) : TreeOp K I → Option (AVLTree K I)
  | TreeOp.ins k v =>
      match t.insert_op k v with
      | (t', none) => some t'
      | (_, some _) => none
  | TreeOp.del k =>
      match t.delete_op k with
      | (t', none) => some t'
      | (_, some _) => none

/-- Run a sequence of operations, all of which must succeed. -/
def applyOps : AVLTree K I → List (TreeOp K I) → Option (AVLTree K I)
  | t, [] => some t
  | t, op :: ops =>
      match applyOp t op with
      | none => none
      | some t' => applyOps t' ops

/-- A successful insert through the wrapper, on a well-formed tree. -/
lemma insert_op_ok {t : AVLTree K I} (hG : GoodTree t) {k : K}
    (hk : k ∉ keys t.root) (v : I) :
    ∃ t', t.insert_op k v = (t', none) ∧ GoodTree t' ∧
      t'.length = t.length + 1 ∧
      (∀ p : K × I, p ∈ inorder t'.root ↔ p = (k, v) ∨ p ∈ inorder t.root) := by
  obtain ⟨hGr, hlen⟩ := hG
  obtain ⟨t1, heq, hG1, hmem, hnn, _, _⟩ := insert_aux_ok hGr hk v t.length
  refine ⟨⟨t1, t.length + 1⟩, ?_, ⟨hG1, ?_⟩, rfl, hmem⟩
  · rw [AVLTree.insert_op, heq]
  · simp only []
    omega

/-- A failing insert through the wrapper leaves the state unchanged. -/
lemma insert_op_dup {t : AVLTree K I} (hO : Ordered t.root) {k : K}
    (hk : k ∈ keys t.root) (v : I) :
    t.insert_op k v = (t, some PyErr.keyError) := by
  rw [AVLTree.insert_op, insert_aux_dup hO hk v t.length]

/-- A successful delete through the wrapper, on a well-formed tree. -/
lemma delete_op_ok {t : AVLTree K I} (hG : GoodTree t) {k : K}
    (hk : k ∈ keys t.root) :
    ∃ t', t.delete_op k = (t', none) ∧ GoodTree t' ∧
      t'.length = t.length - 1 ∧
      inorder t'.root = (inorder t.root).filter (fun p => decide (p.1 ≠ k)) := by
  obtain ⟨hGr, hlen⟩ := hG
  obtain ⟨t1, heq, hG1, hio, hnn, _, _⟩ := delete_aux_ok t.root hGr k hk t.length
  refine ⟨⟨t1, t.length - 1⟩, ?_, ⟨hG1, ?_⟩, rfl, hio⟩
  · rw [AVLTree.delete_op, heq]
  · simp only []
    omega

/-- A failing delete through the wrapper leaves the state unchanged. -/
lemma delete_op_absent {t : AVLTree K I} {k : K}
    (hk : k ∉ keys t.root) :
    t.delete_op k = (t, some PyErr.valueError) := by
  rw [AVLTree.delete_op, delete_aux_absent hk t.length]

/-- Any successful operation preserves the whole-object invariant. -/
lemma applyOp_good {t t' : AVLTree K I} (hG : GoodTree t) {op : TreeOp K I}
    (h : applyOp t op = some t') : GoodTree t' := by
  cases op with
  | ins k v =>
      by_cases hk : k ∈ keys t.root
      · rw [applyOp, insert_op_dup hG.1.1 hk v] at h
        simp at h
      · obtain ⟨t1, heq, hG1, _, _⟩ := insert_op_ok hG hk v
        rw [applyOp, heq] at h
        simp only [Option.some.injEq] at h
        exact h ▸ hG1
  | del k =>
      by_cases hk : k ∈ keys t.root
      · obtain ⟨t1, heq, hG1, _, _⟩ := delete_op_ok hG hk
        rw [applyOp, heq] at h
        simp only [Option.some.injEq] at h
        exact h ▸ hG1
      · rw [applyOp, delete_op_absent hk] at h
        simp at h

lemma applyOps_good {ops : List (TreeOp K I)} :
    ∀ {t t' : AVLTree K I}, GoodTree t → applyOps t ops = some t' →
    GoodTree t' := by
  induction ops with
  | nil =>
      intro t t' hG h
      simp only [applyOps, Option.some.injEq] at h
      exact h ▸ hG
  | cons op ops ih =>
      intro t t' hG h
      rw [applyOps] at h
      cases hstep : applyOp t op with
      | none => rw [hstep] at h; simp at h
      | some t1 =>
          rw [hstep] at h
          exact ih (applyOp_good hG hstep) h

lemma goodTree_empty : GoodTree (emptyTree : AVLTree K I) :=
  ⟨⟨trivial, trivial, trivial⟩, rfl⟩

/-- The bare parent-child structure of a subtree: keys, items and shape,
without the cached `height`/`tree_size` fields. -/
inductive RawTree (K I : Type) where
  | nil : RawTree K I
  | node (key : K) (item : I) (left right : RawTree K I) : RawTree K I
deriving DecidableEq, Repr

/-- Erase the cached fields, keeping the parent-child structure. -/
def strip : AVLNode K I → RawTree K I
  | AVLNode.nil => RawTree.nil
  | AVLNode.node k v l r _ _ => RawTree.node k v (strip l) (strip r)

/-! ### The claims -/

/-- C1: after every finite sequence of successful insert and delete
operations starting from the empty tree, all four structural invariants
hold: every node is AVL-balanced, every cached `height`/`tree_size`
field equals its recursive definition, the in-order keys are strictly
ascending, and the tree's `length` equals the number of nodes and equals
the root's `tree_size` field whenever a root exists. -/
theorem C1_invariants_after_operations (ops : List (TreeOp K I))
    (t : AVLTree K I) (h : applyOps emptyTree ops = some t) :
    BalancedR t.root ∧ CachedOk t.root ∧ (keys t.root).Pairwise (· < ·) ∧
    t.length = num_nodes t.root ∧
    (∀ (k : K) (v : I) (l r : AVLNode K I) (hh ss : Int),
      t.root = node k v l r hh ss → t.length = ss) := by
  obtain ⟨⟨hO, hB, hC⟩, hlen⟩ := applyOps_good goodTree_empty h
  refine ⟨hB, hC, ordered_pairwise hO, hlen, ?_⟩
  intro k v l r hh ss hroot
  rw [hroot] at hC hlen
  obtain ⟨_, _, _, hss⟩ := (cachedOk_node ..).mp hC
  rw [hlen]
  simp only [num_nodes_node]
  omega

theorem C1_witness :
    BalancedR ((⟨node 2 20 nil nil 1 1, 1⟩ : AVLTree Int Int)).root ∧
    CachedOk ((⟨node 2 20 nil nil 1 1, 1⟩ : AVLTree Int Int)).root ∧
    (keys ((⟨node 2 20 nil nil 1 1, 1⟩ : AVLTree Int Int)).root).Pairwise (· < ·) ∧
    ((⟨node 2 20 nil nil 1 1, 1⟩ : AVLTree Int Int)).length =
      num_nodes ((⟨node 2 20 nil nil 1 1, 1⟩ : AVLTree Int Int)).root ∧
    (∀ (k : Int) (v : Int) (l r : AVLNode Int Int) (hh ss : Int),
      ((⟨node 2 20 nil nil 1 1, 1⟩ : AVLTree Int Int)).root = node k v l r hh ss →
      ((⟨node 2 20 nil nil 1 1, 1⟩ : AVLTree Int Int)).length = ss) :=
  C1_invariants_after_operations
    [TreeOp.ins 1 10, TreeOp.ins 2 20, TreeOp.del 1]
    ⟨node 2 20 nil nil 1 1, 1⟩ (by rfl)

/-- C2: on an invariant-satisfying tree with `0 ≤ i ≤ j < length`,
`range_between i j` is exactly the slice `[i, j]` of the in-order value
list, and the in-order keys are strictly ascending (so that list is the
value list sorted by key). -/
theorem C2_range_between_slice (t : AVLTree K I) (hG : GoodTree t)
    (i j : Int) (h0 : 0 ≤ i) (hij : i ≤ j) (hj : j < t.length) :
    t.range_between i j =
      ((items t.root).drop i.toNat).take (j - i + 1).toNat ∧
    (keys t.root).Pairwise (· < ·) := by
  obtain ⟨⟨hO, hB, hC⟩, hlen⟩ := hG
  constructor
  · rw [AVLTree.range_between, range_aux_spec t.root hC i j (t.length - 1) []]
    rw [show t.length - 1 + 1 - num_nodes t.root = 0 from by omega]
    rw [window_eq]
    rw [show max i 0 = i from max_eq_left h0]
    simp
  · exact ordered_pairwise hO

theorem C2_witness :
    (⟨node 1 10 nil (node 2 20 nil nil 1 1) 2 2, 2⟩ : AVLTree Int Int).range_between 0 1 =
      ((items (node 1 10 nil (node 2 20 nil nil 1 1) 2 2 : AVLNode Int Int)).drop
        (0 : Int).toNat).take ((1 : Int) - 0 + 1).toNat ∧
    (keys (node 1 10 nil (node 2 20 nil nil 1 1) 2 2 : AVLNode Int Int)).Pairwise (· < ·) :=
  C2_range_between_slice (⟨node 1 10 nil (node 2 20 nil nil 1 1) 2 2, 2⟩ : AVLTree Int Int)
    (applyOps_good goodTree_empty
      (show applyOps emptyTree [TreeOp.ins 1 10, TreeOp.ins 2 20] =
        some ⟨node 1 10 nil (node 2 20 nil nil 1 1) 2 2, 2⟩ from rfl))
    0 1 (by norm_num) (by norm_num) (by norm_num)

/-- C3: inserting an already-present key fails with the duplicate-key
error; inserting an absent key succeeds, increments the count by exactly
one, makes lookup of the key return the inserted value, and keeps every
previously present pair present. -/
theorem C3_insert_contract (t : AVLTree K I) (hG : GoodTree t) (k : K) (v : I) :
    (k ∈ keys t.root → (t.insert_op k v).2 = some PyErr.keyError) ∧
    (k ∉ keys t.root →
      (t.insert_op k v).2 = none ∧
      (t.insert_op k v).1.length = t.length + 1 ∧
      find_aux (t.insert_op k v).1.root k = some v ∧
      ∀ p ∈ inorder t.root, p ∈ inorder (t.insert_op k v).1.root) := by
  constructor
  · intro hk
    rw [insert_op_dup hG.1.1 hk]
  · intro hk
    obtain ⟨t', heq, hG', hlen, hmem⟩ := insert_op_ok hG hk v
    rw [heq]
    refine ⟨rfl, hlen, ?_, ?_⟩
    · exact find_aux_some hG'.1.1 ((hmem (k, v)).mpr (Or.inl rfl))
    · intro p hp
      exact (hmem p).mpr (Or.inr hp)

theorem C3_witness :
    ((3 : Int) ∈ keys (node 1 10 nil (node 2 20 nil nil 1 1) 2 2 : AVLNode Int Int) →
      ((⟨node 1 10 nil (node 2 20 nil nil 1 1) 2 2, 2⟩ : AVLTree Int Int).insert_op
        3 30).2 = some PyErr.keyError) ∧
    ((3 : Int) ∉ keys (node 1 10 nil (node 2 20 nil nil 1 1) 2 2 : AVLNode Int Int) →
      ((⟨node 1 10 nil (node 2 20 nil nil 1 1) 2 2, 2⟩ : AVLTree Int Int).insert_op
        3 30).2 = none ∧
      ((⟨node 1 10 nil (node 2 20 nil nil 1 1) 2 2, 2⟩ : AVLTree Int Int).insert_op
        3 30).1.length =
        (⟨node 1 10 nil (node 2 20 nil nil 1 1) 2 2, 2⟩ : AVLTree Int Int).length + 1 ∧
      find_aux ((⟨node 1 10 nil (node 2 20 nil nil 1 1) 2 2, 2⟩ :
        AVLTree Int Int).insert_op 3 30).1.root 3 = some 30 ∧
      ∀ p ∈ inorder (node 1 10 nil (node 2 20 nil nil 1 1) 2 2 : AVLNode Int Int),
        p ∈ inorder ((⟨node 1 10 nil (node 2 20 nil nil 1 1) 2 2, 2⟩ :
          AVLTree Int Int).insert_op 3 30).1.root) :=
  C3_insert_contract (⟨node 1 10 nil (node 2 20 nil nil 1 1) 2 2, 2⟩ : AVLTree Int Int)
    (applyOps_good goodTree_empty
      (show applyOps emptyTree [TreeOp.ins 1 10, TreeOp.ins 2 20] =
        some ⟨node 1 10 nil (node 2 20 nil nil 1 1) 2 2, 2⟩ from rfl))
    3 30

/-- C4: deleting an absent key fails with the key-not-found error;
deleting a present key succeeds, decrements the count by exactly one and
removes exactly that key's pair; and at any matched node with two
children — wherever it sits, since the recursion reaches it with this
exact call — `delete_aux` finds the in-order successor (the leftmost
stored pair of the right subtree, whose key is minimal there), deletes
that successor's key from the right subtree (excising exactly the
successor's original pair), and returns the rebalanced node that carries
the successor's key and value over the original left subtree and the
successor-excised right subtree. -/
theorem C4_delete_contract (t : AVLTree K I) (hG : GoodTree t) (k : K) :
    (k ∉ keys t.root → (t.delete_op k).2 = some PyErr.valueError) ∧
    (k ∈ keys t.root →
      (t.delete_op k).2 = none ∧
      (t.delete_op k).1.length = t.length - 1 ∧
      inorder (t.delete_op k).1.root =
        (inorder t.root).filter (fun p => decide (p.1 ≠ k))) ∧
    (∀ (ck : K) (cv : I) (l r : AVLNode K I) (hh ss len : Int),
      Good (node ck cv l r hh ss) → l ≠ nil → r ≠ nil →
      ∃ sk sv r',
        leftmost_pair r = some (sk, sv) ∧
        (sk, sv) ∈ inorder r ∧
        (∀ x ∈ keys r, sk ≤ x) ∧
        delete_aux r sk len = (Except.ok r', len - 1) ∧
        inorder r' = (inorder r).filter (fun p => decide (p.1 ≠ sk)) ∧
        num_nodes r' = num_nodes r - 1 ∧
        delete_aux (node ck cv l r hh ss) ck len =
          (Except.ok (rebalance (mk_node sk sv l r')), len - 1)) := by
  refine ⟨?_, ?_, ?_⟩
  · intro hk
    rw [delete_op_absent hk]
  · intro hk
    obtain ⟨t', heq, hG', hlen', hio⟩ := delete_op_ok hG hk
    rw [heq]
    exact ⟨rfl, hlen', hio⟩
  · intro ck2 cv2 l r hh ss len hGn hl hr
    obtain ⟨hO, hB, hC⟩ := hGn
    obtain ⟨hOl, hOr, hkl, hkr⟩ := (ordered_node ..).mp hO
    obtain ⟨hBl, hBr, hb1, hb2⟩ := (balancedR_node ..).mp hB
    obtain ⟨hCl, hCr, hch, hcs⟩ := (cachedOk_node ..).mp hC
    obtain ⟨sk, sv, rest, hlm, hrio⟩ := leftmost_pair_cons r hr
    have hkeysr : keys r = sk :: rest.map Prod.fst := by
      simp only [keys, hrio, List.map_cons]
    have hsk_mem : sk ∈ keys r := by
      rw [hkeysr]
      exact List.mem_cons_self _ _
    have hpw := ordered_pairwise hOr
    have hrest_gt : ∀ y ∈ rest.map Prod.fst, sk < y := by
      rw [hkeysr] at hpw
      exact (List.pairwise_cons.mp hpw).1
    have hmin : ∀ x ∈ keys r, sk ≤ x := by
      intro x hx
      rw [hkeysr, List.mem_cons] at hx
      rcases hx with rfl | hx
      · exact le_refl _
      · exact le_of_lt (hrest_gt _ hx)
    obtain ⟨r', heqr, hGr', hior', hnnr, hhr1, hhr2⟩ :=
      delete_aux_ok r ⟨hOr, hBr, hCr⟩ sk hsk_mem len
    refine ⟨sk, sv, r', hlm, by rw [hrio]; exact List.mem_cons_self _ _, hmin,
      heqr, hior', hnnr, ?_⟩
    cases l with
    | nil => exact absurd rfl hl
    | node lk lv ll lr2 lh2 ls2 =>
        cases r with
        | nil => exact absurd rfl hr
        | node rk rv rl rr2 rh2 rs2 =>
            simp only [delete_aux]
            rw [if_neg (lt_irrefl ck2), if_neg (lt_irrefl ck2), hlm]
            split
            · rename_i sk2 sv2 hx0
              injection hx0 with hx0
              injection hx0 with ha hb
              subst ha
              subst hb
              split
              · rename_i r2 len2 hx
                have hx' : delete_aux (node rk rv rl rr2 rh2 rs2) sk len =
                    (Except.ok r2, len2) := hx
                rw [heqr] at hx'
                injection hx' with h1 h2
                injection h1 with h1
                subst h1
                subst h2
                rfl
              · rename_i e len2 hx
                have hx' : delete_aux (node rk rv rl rr2 rh2 rs2) sk len =
                    (Except.error e, len2) := hx
                rw [heqr] at hx'
                exact absurd hx' (by simp)
            · rename_i hx0
              exact absurd hx0 (by simp)

theorem C4_witness :
    ((1 : Int) ∉ keys (node 1 10 nil (node 2 20 nil nil 1 1) 2 2 : AVLNode Int Int) →
      ((⟨node 1 10 nil (node 2 20 nil nil 1 1) 2 2, 2⟩ : AVLTree Int Int).delete_op
        1).2 = some PyErr.valueError) ∧
    ((1 : Int) ∈ keys (node 1 10 nil (node 2 20 nil nil 1 1) 2 2 : AVLNode Int Int) →
      ((⟨node 1 10 nil (node 2 20 nil nil 1 1) 2 2, 2⟩ : AVLTree Int Int).delete_op
        1).2 = none ∧
      ((⟨node 1 10 nil (node 2 20 nil nil 1 1) 2 2, 2⟩ : AVLTree Int Int).delete_op
        1).1.length =
        (⟨node 1 10 nil (node 2 20 nil nil 1 1) 2 2, 2⟩ : AVLTree Int Int).length - 1 ∧
      inorder ((⟨node 1 10 nil (node 2 20 nil nil 1 1) 2 2, 2⟩ :
        AVLTree Int Int).delete_op 1).1.root =
        (inorder (node 1 10 nil (node 2 20 nil nil 1 1) 2 2 : AVLNode Int Int)).filter
          (fun p => decide (p.1 ≠ 1))) ∧
    (∀ (ck : Int) (cv : Int) (l r : AVLNode Int Int) (hh ss len : Int),
      Good (node ck cv l r hh ss) → l ≠ nil → r ≠ nil →
      ∃ sk sv r',
        leftmost_pair r = some (sk, sv) ∧
        (sk, sv) ∈ inorder r ∧
        (∀ x ∈ keys r, sk ≤ x) ∧
        delete_aux r sk len = (Except.ok r', len - 1) ∧
        inorder r' = (inorder r).filter (fun p => decide (p.1 ≠ sk)) ∧
        num_nodes r' = num_nodes r - 1 ∧
        delete_aux (node ck cv l r hh ss) ck len =
          (Except.ok (rebalance (mk_node sk sv l r')), len - 1)) :=
  C4_delete_contract (⟨node 1 10 nil (node 2 20 nil nil 1 1) 2 2, 2⟩ : AVLTree Int Int)
    (applyOps_good goodTree_empty
      (show applyOps emptyTree [TreeOp.ins 1 10, TreeOp.ins 2 20] =
        some ⟨node 1 10 nil (node 2 20 nil nil 1 1) 2 2, 2⟩ from rfl))
    1

/-- C5: insert of a present key and delete of an absent key are atomic
failures — the wrapper returns the error and the entire tree object
(root structure and length counter) is exactly the input state.  In the
source the exception is raised before any assignment, so nothing is
mutated. -/
theorem C5_atomic_failures (t : AVLTree K I) (hG : GoodTree t) (k : K) (v : I) :
    (k ∈ keys t.root → t.insert_op k v = (t, some PyErr.keyError)) ∧
    (k ∉ keys t.root → t.delete_op k = (t, some PyErr.valueError)) :=
  ⟨fun hk => insert_op_dup hG.1.1 hk v, fun hk => delete_op_absent hk⟩

theorem C5_witness :
    ((1 : Int) ∈ keys (node 1 10 nil (node 2 20 nil nil 1 1) 2 2 : AVLNode Int Int) →
      (⟨node 1 10 nil (node 2 20 nil nil 1 1) 2 2, 2⟩ : AVLTree Int Int).insert_op 1 99 =
        (⟨node 1 10 nil (node 2 20 nil nil 1 1) 2 2, 2⟩, some PyErr.keyError)) ∧
    ((1 : Int) ∉ keys (node 1 10 nil (node 2 20 nil nil 1 1) 2 2 : AVLNode Int Int) →
      (⟨node 1 10 nil (node 2 20 nil nil 1 1) 2 2, 2⟩ : AVLTree Int Int).delete_op 1 =
        (⟨node 1 10 nil (node 2 20 nil nil 1 1) 2 2, 2⟩, some PyErr.valueError)) :=
  C5_atomic_failures (⟨node 1 10 nil (node 2 20 nil nil 1 1) 2 2, 2⟩ : AVLTree Int Int)
    (applyOps_good goodTree_empty
      (show applyOps emptyTree [TreeOp.ins 1 10, TreeOp.ins 2 20] =
        some ⟨node 1 10 nil (node 2 20 nil nil 1 1) 2 2, 2⟩ from rfl))
    1 99

/-- C7: on a nonempty BST-ordered tree, `get_max` returns the pair with
the greatest key (reached by descending right children); on an empty
tree it fails with the error raised by evaluating `None.right`
(`AttributeError`), and, being read-only, changes nothing. -/
theorem C7_get_max (t : AVLTree K I) (hG : GoodTree t) :
    (t.root = nil → t.get_max = Except.error PyErr.attributeError) ∧
    (t.root ≠ nil → ∃ km vm, t.get_max = Except.ok (km, vm) ∧
      (km, vm) ∈ inorder t.root ∧ ∀ x ∈ keys t.root, x ≤ km) := by
  constructor
  · intro h
    rw [AVLTree.get_max, h]
    rfl
  · intro h
    exact get_max_aux_spec hG.1.1 h

theorem C7_witness :
    ∃ km vm, (⟨node 1 10 nil (node 2 20 nil nil 1 1) 2 2, 2⟩ :
        AVLTree Int Int).get_max = Except.ok (km, vm) ∧
      (km, vm) ∈ inorder (node 1 10 nil (node 2 20 nil nil 1 1) 2 2 :
        AVLNode Int Int) ∧
      ∀ x ∈ keys (node 1 10 nil (node 2 20 nil nil 1 1) 2 2 : AVLNode Int Int),
        x ≤ km :=
  (C7_get_max (⟨node 1 10 nil (node 2 20 nil nil 1 1) 2 2, 2⟩ : AVLTree Int Int)
    (applyOps_good goodTree_empty
      (show applyOps emptyTree [TreeOp.ins 1 10, TreeOp.ins 2 20] =
        some ⟨node 1 10 nil (node 2 20 nil nil 1 1) 2 2, 2⟩ from rfl))).2
    (fun hx => AVLNode.noConfusion hx)

/-- C8: inserting keys 1, 2, 3 in that order (with any values) into an
empty tree yields root key 2 with left child 1, right child 3 and root
height 2 (single left rotation); inserting 3, 1, 2 yields the same
shape (RL double rotation). -/
theorem C8_rotation_unit_tests (I₀ : Type) (v1 v2 v3 w1 w2 w3 : I₀) :
    ((((emptyTree : AVLTree Int I₀).insert_op 1 v1).1.insert_op
        2 v2).1.insert_op 3 v3).1.root =
      node 2 v2 (node 1 v1 nil nil 1 1) (node 3 v3 nil nil 1 1) 2 3 ∧
    ((((emptyTree : AVLTree Int I₀).insert_op 3 w1).1.insert_op
        1 w2).1.insert_op 2 w3).1.root =
      node 2 w3 (node 1 w2 nil nil 1 1) (node 3 w1 nil nil 1 1) 2 3 :=
  ⟨rfl, rfl⟩

/-- C9: an applicable `left_rotate` followed by `right_rotate` restores
the original parent-child structure exactly (the cached height and size
of the two restructured nodes being recomputed), and each applicable
rotation preserves the in-order traversal and the node count. -/
theorem C9_rotations (k rk lk : K) (v rv lv : I)
    (l rl rr2 ll lr2 r : AVLNode K I) (rh2 rs2 lh2 ls2 h s : Int) :
    strip (right_rotate (left_rotate (node k v l (node rk rv rl rr2 rh2 rs2) h s))) =
      strip (node k v l (node rk rv rl rr2 rh2 rs2) h s) ∧
    (inorder (left_rotate (node k v l (node rk rv rl rr2 rh2 rs2) h s)) =
      inorder (node k v l (node rk rv rl rr2 rh2 rs2) h s) ∧
     num_nodes (left_rotate (node k v l (node rk rv rl rr2 rh2 rs2) h s)) =
      num_nodes (node k v l (node rk rv rl rr2 rh2 rs2) h s)) ∧
    (inorder (right_rotate (node k v (node lk lv ll lr2 lh2 ls2) r h s)) =
      inorder (node k v (node lk lv ll lr2 lh2 ls2) r h s) ∧
     num_nodes (right_rotate (node k v (node lk lv ll lr2 lh2 ls2) r h s)) =
      num_nodes (node k v (node lk lv ll lr2 lh2 ls2) r h s)) := by
  refine ⟨rfl, ⟨?_, ?_⟩, ⟨?_, ?_⟩⟩
  · simp [left_rotate, List.append_assoc]
  · simp [left_rotate]
    omega
  · simp [right_rotate, List.append_assoc]
  · simp [right_rotate]
    omega

/-- C6 (amended): `range_between` performs no argument validation and
never raises: for every invariant-satisfying tree and all integer
arguments it returns the values whose rank lies in the clamped window
`[max i 0, j]` — the empty list when `i > j`, a truncated slice when
`j ≥ length` — and, being read-only, changes nothing. -/
theorem C6_range_between_no_validation (t : AVLTree K I) (hG : GoodTree t)
    (i j : Int) :
    t.range_between i j =
      ((items t.root).drop i.toNat).take (j - max i 0 + 1).toNat := by
  obtain ⟨⟨hO, hB, hC⟩, hlen⟩ := hG
  rw [AVLTree.range_between, range_aux_spec t.root hC i j (t.length - 1) []]
  rw [show t.length - 1 + 1 - num_nodes t.root = 0 from by omega]
  rw [window_eq]
  simp

theorem C6_witness :
    (⟨node 1 10 nil (node 2 20 nil nil 1 1) 2 2, 2⟩ :
      AVLTree Int Int).range_between 0 5 =
      ((items (node 1 10 nil (node 2 20 nil nil 1 1) 2 2 :
        AVLNode Int Int)).drop (0 : Int).toNat).take
        ((5 : Int) - max 0 0 + 1).toNat :=
  C6_range_between_no_validation
    (⟨node 1 10 nil (node 2 20 nil nil 1 1) 2 2, 2⟩ : AVLTree Int Int)
    (applyOps_good goodTree_empty
      (show applyOps emptyTree [TreeOp.ins 1 10, TreeOp.ins 2 20] =
        some ⟨node 1 10 nil (node 2 20 nil nil 1 1) 2 2, 2⟩ from rfl))
    0 5

/-- C6 counterexample: on a two-element tree, calling `range_between`
with `j = 5 ≥ count` raises nothing — it silently returns a result (the
truncated slice), contradicting the claim that the call fails fast with
a range error and never succeeds silently or returns a partial result. -/
theorem C6_counterexample :
    (⟨node 1 10 nil (node 2 20 nil nil 1 1) 2 2, 2⟩ :
      AVLTree Int Int).range_between 0 5 = [10, 20] := rfl

end AVL

namespace HT

/-! ### Linear-probing hash table (`src/hash_table.py`, `src/primes.py`)

Strings are modelled as the list of their character codes (`ord`), and
Python exceptions again as `Except`.  The `__setitem__`/`_rehash`
recursion is bounded by a fuel parameter; the source relies on table
growth for termination, and every reachable call chain is shallow. -/

/-- The halving loop of `is_prime` (primes.py lines 23-27):
`while d % 2 == 0: d //= 2; s += 1`.  The first argument is fuel
bounding the loop; `fuel ≥ d` always suffices for the `d ≥ 1` reached
from the guarded call site. -/
def halve : Nat → Nat → Nat → Nat × Nat
  | 0, d, s => (d, s)
  | fuel + 1, d, s => if d % 2 = 0 then halve fuel (d / 2) (s + 1) else (d, s)

/-- The inner witness loop of `is_prime` (primes.py lines 35-39):
`for r in range(1, s)` squaring `x` modulo `n`, succeeding on `n-1`. -/
def mr_inner (n : Nat) : Nat → Nat → Bool
  | _, 0 => false
  | x, k + 1 =>
      let x2 := x * x % n
      if x2 = n - 1 then true else mr_inner n x2 k

/-- The outer loop of `is_prime` over the fixed witnesses (primes.py
lines 28-41); `pow(v, d, n)` is `v ^ d % n`. -/
def mr_outer (n d s : Nat) : List Nat → Bool
  | [] => true
  | v :: vs =>
      if v ≥ n then true
      else
        let x := v ^ d % n
        if x = 1 ∨ x = n - 1 then mr_outer n d s vs
        else if mr_inner n x (s - 1) then mr_outer n d s vs
        else false

/-- Function `is_prime` (primes.py lines 8-42). -/
def is_prime (n : Nat) : Bool :=
  if n < 2 then false
  else
    let ds := halve (n - 1) (n - 1) 0
    mr_outer n ds.1 ds.2 [2, 7, 61]

/-- The scan of `LargestPrimeIterator.__next__` (primes.py lines 66-77):
`for num in range(self.upper_bound - 1, 0, -1)`. -/
def next_largest_prime_from : Nat → Option Nat
  | 0 => none
  | n + 1 => if is_prime (n + 1) then some (n + 1) else next_largest_prime_from n

/-- Method `LargestPrimeIterator.__next__`: the largest prime strictly below
the upper bound (`none` when the loop falls through, where the source
returns Python `None`). -/
def largest_prime_lt (ub : Nat) : Option Nat := next_largest_prime_from (ub - 1)

/-- Models Python `int(x * 2.2)` (hash_table.py lines 50 and 258): for
the magnitudes occurring here the float product lies between the exact
rational `11x/5` and the next integer, so truncation agrees with exact
integer division. -/
def int_times_2_2 (x : Nat) : Nat := 11 * x / 5

/-- Class `LinearProbeTable` (hash_table.py lines 21-67): the backing
`ArrayR` (from the absent `referential_array.py`) is a fixed-size array
of `None`-initialised slots, modelled as a list of `Option` entries. -/
structure LinearProbeTable (V : Type) where
  expected_size : Int
  tablesize : Nat
  table : List (Option (List Nat × V))
  count : Int
  conflict_count : Int
  probe_total : Int
  probe_max : Int
  rehash_count : Int
deriving DecidableEq, Repr

/-- The loop of `hash` (hash_table.py lines 76-82). -/
def pyHash_go (tbl_len : Nat) : List Nat → Nat → Nat → Nat
  | [], value, _ => value
  | c :: rest, value, a =>
      pyHash_go tbl_len rest ((c + a * value) % tbl_len)
        (a * 27183 % (tbl_len - 1))

/-- Method `hash` (hash_table.py lines 70-82), with `a = 31415`, `b = 27183`. -/
def pyHash (tbl_len : Nat) (key : List Nat) : Nat :=
  pyHash_go tbl_len key 0 31415

/-- The scan loop of `_linear_probe` (hash_table.py lines 134-157):
returns the found position or `KeyError`, plus the updated
`probe_total` and `probe_max`; `cur` is `cur_probe_chain`. -/
def probe_go (table : List (Option (List Nat × V))) (key : List Nat)
    (is_insert : Bool) : Nat → Nat → Int → Int → Int →
    Except Unit Nat × Int × Int
  | _, 0, ptot, pmax, _ => (Except.error (), ptot, pmax)
  | pos, fuel + 1, ptot, pmax, cur =>
      match table.getD pos none with
      | none =>
          if is_insert then
            (Except.ok pos, ptot, if cur > pmax then cur else pmax)
          else (Except.error (), ptot, pmax)
      | some (k2, _) =>
          if k2 = key then
            (Except.ok pos, ptot, if cur > pmax then cur else pmax)
          else
            probe_go table key is_insert ((pos + 1) % table.length) fuel
              (ptot + 1) pmax (cur + 1)

/-- Method `_linear_probe` (hash_table.py lines 120-157): hash the key, check
`is_full` when inserting, then scan at most `len(table)` slots. -/
def _linear_probe (tb : LinearProbeTable V) (key : List Nat)
    (is_insert : Bool) : Except Unit Nat × LinearProbeTable V :=
  if is_insert ∧ tb.count = (tb.table.length : Int) then
    (Except.error (), tb)
  else
    match probe_go tb.table key is_insert (pyHash tb.table.length key)
        tb.table.length tb.probe_total tb.probe_max 0 with
    | (res, ptot, pmax) =>
        (res, { tb with probe_total := ptot, probe_max := pmax })

/-- The reinsertion loop of `_rehash` (hash_table.py lines 265-271),
parameterised by the store operation `f` (the source's recursive
`self[key] = data`). -/
def reinsert_go
    (f : LinearProbeTable V → List Nat → V → Except Unit (LinearProbeTable V)) :
    LinearProbeTable V → List (Option (List Nat × V)) →
    Except Unit (LinearProbeTable V)
  | tb, [] => Except.ok tb
  | tb, none :: rest => reinsert_go f tb rest
  | tb, some (k, v) :: rest => do
      let tb2 ← f tb k v
      reinsert_go f tb2 rest

/-- Method `_rehash` (hash_table.py lines 246-274), parameterised by the store
operation used to reinsert: grow to the largest prime below
`2.2 * tablesize`, reset, reinsert every stored pair, and count the
rehash. -/
def _rehash_with
    (f : LinearProbeTable V → List Nat → V → Except Unit (LinearProbeTable V))
    (tb : LinearProbeTable V) : Except Unit (LinearProbeTable V) := do
  let new_size := (largest_prime_lt (int_times_2_2 tb.tablesize)).getD 0
  let start : LinearProbeTable V :=
    { tb with
      table := List.replicate new_size none
      count := 0
      tablesize := new_size }
  let tb2 ← reinsert_go f start tb.table
  Except.ok { tb2 with rehash_count := tb2.rehash_count + 1 }

/-- Method `__setitem__` (hash_table.py lines 203-221): rehash when more than
half full, probe for the slot, bump `count` when the slot was empty,
store the pair.  A probe failure propagates as `KeyError`.  The fuel
bounds the setitem/rehash recursion, which the source leaves to table
growth; every reachable chain is shallow. -/
def setitem : Nat → LinearProbeTable V → List Nat → V →
    Except Unit (LinearProbeTable V)
  | 0, _, _, _ => Except.error ()
  | fuel + 1, tb, key, data => do
      let tb1 ← if 2 * tb.count > (tb.tablesize : Int) then
          _rehash_with (setitem fuel) tb
        else pure tb
      match _linear_probe tb1 key true with
      | (Except.error _, _) => Except.error ()
      | (Except.ok position, tb2) =>
          let tb3 := if (tb2.table.getD position none).isNone then
              { tb2 with count := tb2.count + 1 } else tb2
          Except.ok { tb3 with table := tb3.table.set position (some (key, data)) }

/-- Method `__init__` (hash_table.py lines 31-67). -/
def table_init (V : Type) (expected_size : Int) (tablesize_override : Int) :
    LinearProbeTable V :=
  let tablesize := if tablesize_override > -1 then tablesize_override.toNat
    else (largest_prime_lt (int_times_2_2 expected_size.toNat)).getD 0
  { expected_size := expected_size, tablesize := tablesize,
    table := List.replicate tablesize none, count := 0,
    conflict_count := 0, probe_total := 0, probe_max := 0, rehash_count := 0 }

variable {V : Type}

/-- When the probe scan returns a position, that slot is either empty
(insert mode) or holds the searched key. -/
lemma probe_go_ok {table : List (Option (List Nat × V))} {key : List Nat}
    {is_insert : Bool} :
    ∀ {fuel pos : Nat} {ptot pmax cur : Int} {p : Nat},
    (probe_go table key is_insert pos fuel ptot pmax cur).1 = Except.ok p →
    (table.getD p none = none ∧ is_insert = true) ∨
      ∃ w, table.getD p none = some (key, w) := by
  intro fuel
  induction fuel with
  | zero =>
      intro pos ptot pmax cur p h
      simp [probe_go] at h
  | succ fuel ih =>
      intro pos ptot pmax cur p h
      rw [probe_go] at h
      split at h
      · rename_i hslot
        cases is_insert with
        | false => simp at h
        | true =>
            simp only [if_true] at h
            injection h with h
            exact Or.inl ⟨h ▸ hslot, rfl⟩
      · rename_i k2 w hslot
        by_cases hk : k2 = key
        · rw [if_pos hk] at h
          injection h with h
          exact Or.inr ⟨w, h ▸ (hk ▸ hslot)⟩
        · rw [if_neg hk] at h
          exact ih h

/-- Method `_linear_probe` only updates the probe statistics: the table, the
count and the table size are unchanged. -/
lemma _linear_probe_fields {tb : LinearProbeTable V} {key : List Nat}
    {ins : Bool} {res : Except Unit Nat} {tb' : LinearProbeTable V}
    (h : _linear_probe tb key ins = (res, tb')) :
    tb'.table = tb.table ∧ tb'.count = tb.count ∧
      tb'.tablesize = tb.tablesize := by
  rw [_linear_probe] at h
  by_cases hc : ins ∧ tb.count = (tb.table.length : Int)
  · rw [if_pos hc] at h
    injection h with h1 h2
    rw [← h2]
    exact ⟨rfl, rfl, rfl⟩
  · rw [if_neg hc] at h
    injection h with h1 h2
    rw [← h2]
    exact ⟨rfl, rfl, rfl⟩

/-- When `_linear_probe` in insert mode succeeds, the found slot is
empty or holds the key. -/
lemma _linear_probe_ok_slot {tb : LinearProbeTable V} {key : List Nat}
    {p : Nat} {tb' : LinearProbeTable V}
    (h : _linear_probe tb key true = (Except.ok p, tb')) :
    tb.table.getD p none = none ∨ ∃ w, tb.table.getD p none = some (key, w) := by
  rw [_linear_probe] at h
  by_cases hc : (true : Bool) ∧ tb.count = (tb.table.length : Int)
  · rw [if_pos hc] at h
    injection h with h1 h2
    simp at h1
  · rw [if_neg hc] at h
    have hfst : (probe_go tb.table key true (pyHash tb.table.length key)
        tb.table.length tb.probe_total tb.probe_max 0).1 = Except.ok p :=
      congrArg Prod.fst h
    rcases probe_go_ok hfst with ⟨hn, _⟩ | hw
    · exact Or.inl hn
    · exact Or.inr hw

/-- C10 (amended): provided the call triggers no rehash (the table is at
most half full) and the probe finds a slot for the key, `__setitem__`
stores the pair at that slot and changes no other slot; the found slot
either already held the key — then the value is overwritten and `count`
is unchanged — or was empty — the only case in which `count` is
incremented.  (When a rehash fires, other slots move; see the
counterexample.) -/
theorem C10_setitem_no_rehash (tb : LinearProbeTable V)
    (key : List Nat) (v : V) (fuel : Nat) (p : Nat) (tbp : LinearProbeTable V)
    (hno : ¬ (2 * tb.count > (tb.tablesize : Int)))
    (hprobe : _linear_probe tb key true = (Except.ok p, tbp)) :
    ∃ tb2, setitem (fuel + 1) tb key v = Except.ok tb2 ∧
      tb2.table = tbp.table.set p (some (key, v)) ∧
      tbp.table = tb.table ∧
      (tb.table.getD p none = none ∨ ∃ w, tb.table.getD p none = some (key, w)) ∧
      ((∃ w, tb.table.getD p none = some (key, w)) → tb2.count = tb.count) ∧
      (tb.table.getD p none = none → tb2.count = tb.count + 1) ∧
      (∀ q, q ≠ p → tb2.table.getD q none = tb.table.getD q none) := by
  obtain ⟨htab, hcnt, hts⟩ := _linear_probe_fields hprobe
  have hslot := _linear_probe_ok_slot hprobe
  rw [setitem]
  rw [if_neg hno]
  simp only [pure_bind]
  rw [hprobe]
  dsimp only
  cases hsl : tb.table.getD p none with
  | none =>
      have hnone : (tbp.table.getD p none).isNone = true := by
        rw [htab, hsl]; rfl
      rw [if_pos hnone]
      refine ⟨_, rfl, rfl, htab, Or.inl rfl, ?_, ?_, ?_⟩
      · rintro ⟨w, hw⟩
        exact absurd hw (by simp)
      · intro _
        show tbp.count + 1 = tb.count + 1
        rw [hcnt]
      · intro q hq
        show (tbp.table.set p (some (key, v))).getD q none = tb.table.getD q none
        simp [List.getD, List.getElem?_set_ne (Ne.symm hq), htab]
  | some kv =>
      have hnone : (tbp.table.getD p none).isNone = false := by
        rw [htab, hsl]; rfl
      rw [if_neg (by rw [hnone]; exact Bool.false_ne_true)]
      rcases hslot with hn | ⟨w, hw⟩
      · rw [hsl] at hn
        exact absurd hn (by simp)
      · refine ⟨_, rfl, rfl, htab, Or.inr ⟨w, by rw [← hsl]; exact hw⟩, ?_, ?_, ?_⟩
        · intro _
          exact hcnt
        · intro hcon
          exact absurd hcon (by simp)
        · intro q hq
          show (tbp.table.set p (some (key, v))).getD q none = tb.table.getD q none
          simp [List.getD, List.getElem?_set_ne (Ne.symm hq), htab]

theorem C10_witness :
    ∃ tb2, setitem (8 + 1)
        (⟨1, 3, [none, some ([97], 1), none], 1, 0, 0, 0, 0⟩ :
          LinearProbeTable Int) [97] 9 = Except.ok tb2 ∧
      tb2.table = ((⟨1, 3, [none, some ([97], 1), none], 1, 0, 0, 0, 0⟩ :
          LinearProbeTable Int)).table.set 1 (some ([97], 9)) ∧
      ((⟨1, 3, [none, some ([97], 1), none], 1, 0, 0, 0, 0⟩ :
          LinearProbeTable Int)).table =
        ((⟨1, 3, [none, some ([97], 1), none], 1, 0, 0, 0, 0⟩ :
          LinearProbeTable Int)).table ∧
      (((⟨1, 3, [none, some ([97], 1), none], 1, 0, 0, 0, 0⟩ :
          LinearProbeTable Int)).table.getD 1 none = none ∨
        ∃ w, ((⟨1, 3, [none, some ([97], 1), none], 1, 0, 0, 0, 0⟩ :
          LinearProbeTable Int)).table.getD 1 none = some ([97], w)) ∧
      ((∃ w, ((⟨1, 3, [none, some ([97], 1), none], 1, 0, 0, 0, 0⟩ :
          LinearProbeTable Int)).table.getD 1 none = some ([97], w)) →
        tb2.count = 1) ∧
      (((⟨1, 3, [none, some ([97], 1), none], 1, 0, 0, 0, 0⟩ :
          LinearProbeTable Int)).table.getD 1 none = none → tb2.count = 1 + 1) ∧
      (∀ q, q ≠ 1 → tb2.table.getD q none =
        ((⟨1, 3, [none, some ([97], 1), none], 1, 0, 0, 0, 0⟩ :
          LinearProbeTable Int)).table.getD q none) :=
  C10_setitem_no_rehash
    (⟨1, 3, [none, some ([97], 1), none], 1, 0, 0, 0, 0⟩ : LinearProbeTable Int)
    [97] 9 8 1
    (⟨1, 3, [none, some ([97], 1), none], 1, 0, 0, 0, 0⟩ : LinearProbeTable Int)
    (by norm_num) (by rfl)

/-- The state of the size-3 table after inserting codes "a" -> 1 and
"b" -> 2 (reachability is the first conjunct of the counterexample). -/
def c10_pre : LinearProbeTable Int :=
  ⟨1, 3, [none, some ([97], 1), some ([98], 2)], 2, 0, 0, 0, 0⟩

/-- The state after then setting "a" -> 9: the call rehashes (2 > 3/2)
into a size-5 table before overwriting. -/
def c10_post : LinearProbeTable Int :=
  ⟨1, 5, [none, none, some ([97], 9), some ([98], 2), none], 2, 0, 0, 0, 1⟩

/-- C10 counterexample: in the reachable size-3 state holding "a" at
slot 1 and "b" at slot 2, setting the already-present key "a" triggers
a rehash; afterwards slot 2 holds ("a", 9) instead of ("b", 2), so an
occupied slot other than the key's is NOT left unchanged, refuting the
claim as stated (its count clause survives: count is 2 before and
after). -/
theorem C10_counterexample :
    (setitem 9 (table_init Int 1 3) [97] 1 >>= fun s1 =>
      setitem 9 s1 [98] 2) = Except.ok c10_pre ∧
    setitem 9 c10_pre [97] 9 = Except.ok c10_post ∧
    c10_pre.table.getD 1 none = some ([97], 1) ∧
    c10_pre.table.getD 2 none = some ([98], 2) ∧
    c10_post.table.getD 2 none = some ([97], 9) ∧
    c10_post.count = c10_pre.count :=
  ⟨rfl, rfl, rfl, rfl, rfl, rfl⟩

end HT
